import Mathlib

/-!
# Verification of the SISCAN mammography report extractor

A shallow embedding of the core extraction engine of the
`siscan-mamografia-busca-ativa` repository:

* `TextUtils` (src/extrator_laudo/utils/text_utils.py): `normalize`,
  `get_text_after_words`, `extract_key_value_pairs`;
* `SiscanReportExtractor` (src/extrator_laudo/base.py):
  `_extract_lines_from_page`, `_extract_labeled_field`, `_process_report`,
  `process`.

Strings are modelled as `List Char` so that every Python string operation
used by the source (find, replace, strip, slicing) has an explicit,
executable counterpart.  Coordinates, which are Python floats in the source,
are modelled as exact rationals: the parser only compares them with
`abs (a - b) <= tol`, `==` and sorts by them.  File-system side effects
(saving text dumps, JSON, Excel) do not influence the parse state and are
not modelled, except for the exceptions they may raise where the source
raises them.  Python exceptions are modelled with an `Except` monad.
-/

namespace Siscan

/-- Python strings, modelled as lists of unicode characters. -/
abbrev Str := List Char

/-- Whitespace for Python's str.strip() and the re module's \s class
(unicode whitespace: ASCII space, tab, newline, vertical tab, form feed,
carriage return, the C1 separators 0x1c-0x1f, NEL, NBSP and the unicode
space separators). -/
def isPySpace (c : Char) : Bool :=
  let n := c.toNat
  n == 32 || (9 ≤ n && n ≤ 13) || (28 ≤ n && n ≤ 31) || n == 0x85 ||
  n == 0xa0 || n == 0x1680 || (0x2000 ≤ n && n ≤ 0x200a) ||
  n == 0x2028 || n == 0x2029 || n == 0x202f || n == 0x205f || n == 0x3000

/-- Python str.lstrip(). -/
def lstripWS (s : Str) : Str := s.dropWhile isPySpace

/-- Python str.rstrip(). -/
def rstripWS (s : Str) : Str := (s.reverse.dropWhile isPySpace).reverse

/-- Python str.strip(). -/
def pyStrip (s : Str) : Str := rstripWS (lstripWS s)

/-- Python str.rstrip(chars) for a single character: drops every trailing
occurrence of that character. -/
def rstripChar (ch : Char) (s : Str) : Str :=
  (s.reverse.dropWhile (fun c => c == ch)).reverse

/-- Python str.find(sub): index of the first occurrence of sub, or None
(Python returns -1; re.search on an escaped pattern returns None, which is
the use made of this in the source). -/
def findSub (sub : Str) : Str → Option Nat
  | [] => if sub.isEmpty then some 0 else none
  | c :: t => if sub.isPrefixOf (c :: t) then some 0 else (findSub sub t).map (· + 1)

/-- Python str.replace(old, new) for a non-empty old: replaces every
occurrence, scanning left to right.  The fuel argument only bounds the
recursion: every step consumes at least one character of the remaining
string (old is non-empty in the replacing branch), so fuel = s.length
makes the bound unreachable. -/
def replaceFuel (old new : Str) : Nat → Str → Str
  | _, [] => []
  | 0, s => s
  | fuel + 1, c :: t =>
    if old.isPrefixOf (c :: t) then
      new ++ replaceFuel old new fuel (t.drop (old.length - 1))
    else c :: replaceFuel old new fuel t

/-- Python str.replace(old, new): for an empty old, Python inserts new at
every character boundary. -/
def replaceAll (s old new : Str) : Str :=
  if old.isEmpty then new ++ s.flatMap (fun c => c :: new)
  else replaceFuel old new s.length s

/-- Python list.remove(x): removes the first occurrence, None when x is
absent (where Python raises ValueError). -/
def removeFirst {α : Type} [DecidableEq α] : List α → α → Option (List α)
  | [], _ => none
  | b :: l, a => if b = a then some l else (removeFirst l a).map (b :: ·)

/-- Python set.add on a set modelled as a duplicate-free list (membership
is the only observable the source relies on; Python's iteration order over
a set is unspecified). -/
def setAdd (s : List Str) (x : Str) : List Str :=
  if x ∈ s then s else s ++ [x]

/-- Python set(xs) built from a list, keeping first occurrences. -/
def pySetOf (xs : List Str) : List Str := xs.foldl setAdd []

/-- Python dict lookup d.get(k) / d[k] on a dict modelled as an
insertion-ordered association list with unique keys. -/
def dictGet {κ ν : Type} [DecidableEq κ] : List (κ × ν) → κ → Option ν
  | [], _ => none
  | (k', v) :: d, k => if k' = k then some v else dictGet d k

/-- Python dict assignment d[k] = v: updates in place when the key exists
(keeping its position), appends otherwise. -/
def dictSet {κ ν : Type} [DecidableEq κ] : List (κ × ν) → κ → ν → List (κ × ν)
  | [], k, v => [(k, v)]
  | (k', v') :: d, k, v =>
    if k' = k then (k', v) :: d else (k', v') :: dictSet d k v

/-- " ".join(xs). -/
def joinSpace (xs : List Str) : Str := List.intercalate [' '] xs

/-- Stable insertion into a sorted list: a is placed before the first
element b with not (le a b).  Equal elements inserted earlier stay earlier,
matching the stability guarantee of Python's sorted(). -/
def ordIns {α : Type} (le : α → α → Bool) (a : α) : List α → List α
  | [] => [a]
  | b :: l => if le a b then a :: b :: l else b :: ordIns le a l

/-- Stable sort (insertion sort), the model of Python's sorted(). -/
def stableSort {α : Type} (le : α → α → Bool) : List α → List α
  | [] => []
  | a :: l => ordIns le a (stableSort le l)

/-! ## TextUtils (src/extrator_laudo/utils/text_utils.py) -/

/-- Canonical decomposition of one character, the per-character content of
Python's unicodedata.normalize('NFD', text).  ASCII characters decompose to
themselves; the table covers the accented Latin letters of the Portuguese
report domain (Latin-1 Supplement); any other character is kept as itself. -/
def nfdChar (c : Char) : Str :=
  match c.toNat with
  | 192 => ['A', '̀'] | 193 => ['A', '́'] | 194 => ['A', '̂']
  | 195 => ['A', '̃'] | 196 => ['A', '̈'] | 199 => ['C', '̧']
  | 200 => ['E', '̀'] | 201 => ['E', '́'] | 202 => ['E', '̂']
  | 203 => ['E', '̈'] | 204 => ['I', '̀'] | 205 => ['I', '́']
  | 206 => ['I', '̂'] | 207 => ['I', '̈'] | 209 => ['N', '̃']
  | 210 => ['O', '̀'] | 211 => ['O', '́'] | 212 => ['O', '̂']
  | 213 => ['O', '̃'] | 214 => ['O', '̈'] | 217 => ['U', '̀']
  | 218 => ['U', '́'] | 219 => ['U', '̂'] | 220 => ['U', '̈']
  | 224 => ['a', '̀'] | 225 => ['a', '́'] | 226 => ['a', '̂']
  | 227 => ['a', '̃'] | 228 => ['a', '̈'] | 231 => ['c', '̧']
  | 232 => ['e', '̀'] | 233 => ['e', '́'] | 234 => ['e', '̂']
  | 235 => ['e', '̈'] | 236 => ['i', '̀'] | 237 => ['i', '́']
  | 238 => ['i', '̂'] | 239 => ['i', '̈'] | 241 => ['n', '̃']
  | 242 => ['o', '̀'] | 243 => ['o', '́'] | 244 => ['o', '̂']
  | 245 => ['o', '̃'] | 246 => ['o', '̈'] | 249 => ['u', '̀']
  | 250 => ['u', '́'] | 251 => ['u', '̂'] | 252 => ['u', '̈']
  | _ => [c]

/-- unicodedata.normalize('NFD', text). -/
def pyNFD (s : Str) : Str := s.flatMap nfdChar

/-- text.encode('ascii', 'ignore').decode('utf-8'): drops every non-ASCII
character (in particular the combining marks produced by NFD). -/
def asciiOnly (s : Str) : Str := s.filter (fun c => c.toNat < 128)

/-- re.sub(r'\s+', '_', text), as a one-state scanner: an underscore is
emitted at the first character of each maximal whitespace run (inWS records
whether the previous character was whitespace). -/
def collapseWSAux (inWS : Bool) : Str → Str
  | [] => []
  | c :: t =>
    if isPySpace c then
      if inWS then collapseWSAux true t else '_' :: collapseWSAux true t
    else c :: collapseWSAux false t

/-- re.sub(r'\s+', '_', text): each maximal run of whitespace becomes one
underscore. -/
def collapseWS (s : Str) : Str := collapseWSAux false s

/-- The character class [a-zA-Z0-9_] of re.sub(r'[^a-zA-Z0-9_]', '', text). -/
def isWordChar (c : Char) : Bool :=
  let n := c.toNat
  (97 ≤ n && n ≤ 122) || (65 ≤ n && n ≤ 90) || (48 ≤ n && n ≤ 57) || n == 95

/-- str.lower() on one character.  After the word-character filter the
input is always ASCII, where lower() maps A-Z to a-z and fixes the rest. -/
def toLowerChar (c : Char) : Char :=
  if h : 65 ≤ c.toNat ∧ c.toNat ≤ 90 then
    Char.ofNatAux (c.toNat + 32) (Or.inl (by omega))
  else c

/-- TextUtils.normalize: NFD decomposition, ASCII filter, whitespace runs
to '_', removal of non-word characters, lower-casing. -/
def normalize (text : Str) : Str :=
  ((collapseWS (asciiOnly (pyNFD text))).filter isWordChar).map toLowerChar

/-- label.rstrip(':'). -/
def rstripColon (s : Str) : Str := rstripChar ':' s

/-- The (key, match.start(), match.end()) triples computed by
TextUtils.get_text_after_words: for each label, its first occurrence in the
text (labels that do not occur are skipped), keyed by the label with
trailing colons stripped. -/
def gtawPositions (text : Str) (labels : List Str) : List (Str × Nat × Nat) :=
  labels.filterMap (fun label =>
    (findSub label text).map (fun s => (rstripColon label, s, s + label.length)))

/-- positions.sort(key=lambda x: x[1]): stable sort by match start. -/
def gtawSorted (text : Str) (labels : List Str) : List (Str × Nat × Nat) :=
  stableSort (fun a b => decide (a.2.1 ≤ b.2.1)) (gtawPositions text labels)

/-- The value-extraction loop of get_text_after_words: for each found
label, the text between its match end and the next label's match start
(end of text for the last), stripped; empty becomes None. -/
def gtawLoop (text : Str) :
    List (Str × Nat × Nat) → List (Str × Option Str) → List (Str × Option Str)
  | [], result => result
  | (key, _, e) :: rest, result =>
    let next_start : Nat :=
      match rest with
      | (_, s2, _) :: _ => s2
      | [] => text.length
    let raw_value := pyStrip ((text.drop e).take (next_start - e))
    gtawLoop text rest
      (dictSet result key (if raw_value.isEmpty then none else some raw_value))

/-- TextUtils.get_text_after_words. -/
def get_text_after_words (text : Str) (labels : List Str) :
    List (Str × Option Str) :=
  gtawLoop text (gtawSorted text labels) []

/-! TextUtils.extract_key_value_pairs runs
re.findall(r"(\S.*?):\s*(.*?)(?=\s+\S+?:|$)", text).  The model below
implements that scan for newline-free text; the parser only ever applies it
to reconstructed lines, which are space-joined PDF words and contain no
newline, so the DOTALL/MULTILINE subtleties of '.' and '$' do not arise. -/

/-- Matches \S+?: at the head of a string: at least one non-space
character, all characters before the colon non-space. -/
def colonSearch : Str → Bool
  | [] => false
  | c :: t => c == ':' || (!isPySpace c && colonSearch t)

/-- The \S+?: part of the lookahead, at the head of a string. -/
def colonAfterNonspace : Str → Bool
  | [] => false
  | c :: t => !isPySpace c && colonSearch t

/-- The lookahead (?=\s+\S+?:) at offset s: at least one whitespace
character, then (after the maximal whitespace run, as the regex engine
commits to it before requiring \S) a non-space run reaching a colon. -/
def lookaheadAt (text : Str) (s : Nat) : Bool :=
  let rest := text.drop s
  let a := (rest.takeWhile isPySpace).length
  decide (1 ≤ a) && colonAfterNonspace (rest.drop a)

/-- Lazy expansion of the value group (.*?)(?=\s+\S+?:|$): the least
offset at or after s where the lookahead matches, or the end of the text
(where $ always matches on newline-free input).  The fuel bounds the
recursion; the offset grows by one per step so text.length + 1 units make
the zero-fuel branch (which agrees with the past-the-end clamp)
unreachable from offsets within the text. -/
def findValueEndFuel (text : Str) : Nat → Nat → Nat
  | 0, _ => text.length
  | fuel + 1, s =>
    if text.length ≤ s then text.length
    else if lookaheadAt text s then s
    else findValueEndFuel text fuel (s + 1)

/-- The lazily shortest value end from offset s. -/
def findValueEnd (text : Str) (s : Nat) : Nat :=
  findValueEndFuel text (text.length + 1) s

/-- One match attempt of the findall pattern at offset p: a non-space
character, the lazily shortest key reaching a colon, greedy \s*, then the
lazily shortest value.  Returns (key, value, match end). -/
def ekvpMatchAt (text : Str) (p : Nat) : Option (Str × Str × Nat) :=
  match text.drop p with
  | [] => none
  | c :: _ =>
    if isPySpace c then none
    else
      match findSub [':'] (text.drop (p + 1)) with
      | none => none
      | some qrel =>
        let q := p + 1 + qrel
        let key := (text.drop p).take (q - p)
        let r := q + 1 + ((text.drop (q + 1)).takeWhile isPySpace).length
        let s := findValueEnd text r
        let value := (text.drop r).take (s - r)
        some (key, value, s)

/-- The non-overlapping left-to-right scan of re.findall: try a match at
each offset; on success continue at the match end, otherwise advance one
character.  The scan offset strictly increases at every step
(ekvpMatchAt_gt), so fuel = text.length + 1 units from offset 0 make the
zero-fuel branch unreachable. -/
def ekvpScanFuel (text : Str) : Nat → Nat → List (Str × Str)
  | 0, _ => []
  | fuel + 1, p =>
    if p < text.length then
      match ekvpMatchAt text p with
      | some kve => (kve.1, kve.2.1) :: ekvpScanFuel text fuel kve.2.2
      | none => ekvpScanFuel text fuel (p + 1)
    else []

/-- The full findall scan of the text. -/
def ekvpScan (text : Str) (p : Nat) : List (Str × Str) :=
  ekvpScanFuel text (text.length + 1) p

/-- TextUtils.extract_key_value_pairs: the dict comprehension
  \x7bkey.strip(): value.strip() for key, value in matches\x7d
over the findall matches. -/
def extract_key_value_pairs (text : Str) : List (Str × Str) :=
  (ekvpScan text 0).foldl (fun d kv => dictSet d (pyStrip kv.1) (pyStrip kv.2)) []

/-! ## The extractor (src/extrator_laudo/base.py) -/

/-- The Python exceptions the modelled code can raise. -/
inductive PyExn where
  | emptyDocumentError
  | valueError
  | typeError
  | stopIteration
  | attributeError
  | indexError
  | keyError
deriving DecidableEq, Repr

/-- The clustering test abs (word.y0 - current_y) <= y_tolerance of
_extract_lines_from_page, computed on integer cross products so that it
evaluates by kernel reduction (Mathlib's rational subtraction is marked
irreducible); yClose_eq proves it equal to the textbook form. -/
def yClose (a cy tol : ℚ) : Bool :=
  decide ((((a.num * cy.den - cy.num * a.den).natAbs : ℤ) * tol.den) ≤
    tol.num * ((a.den : ℤ) * cy.den))

/-- One word of page.get_text("words"): bounding box and text (the
block/line/word counters of the PyMuPDF tuple are dropped by the source
when it converts the tuples to dicts). -/
structure Word where
  x0 : ℚ
  y0 : ℚ
  x1 : ℚ
  y1 : ℚ
  text : Str
deriving DecidableEq

/-- The key (y0, x0) of sorted(words, key=lambda w: (w['y0'], w['x0'])),
as a boolean lexicographic order. -/
def wordLEyx (a b : Word) : Bool :=
  decide (a.y0 < b.y0 ∨ (a.y0 = b.y0 ∧ a.x0 ≤ b.x0))

/-- The key of sorted(current_line, key=lambda w: w['x0']). -/
def wordLEx (a b : Word) : Bool := decide (a.x0 ≤ b.x0)

/-- sorted(words, key=lambda w: (w['y0'], w['x0'])) (Python's sort is
stable). -/
def sortWordsYX (ws : List Word) : List Word := stableSort wordLEyx ws

/-- sorted(current_line, key=lambda w: w['x0']). -/
def sortWordsX (ws : List Word) : List Word := stableSort wordLEx ws

/-- The (line_text, x0, y0) tuple flushed for one cluster of words:
space-joined texts in ascending x0 order, and the coordinates of
current_line[0], the first word of the cluster in (y0, x0) order.  The
source indexes current_line[0] only at flush points, where the cluster is
never empty; the empty case is supplied to make the function total. -/
def renderLine (current_line : List Word) : Str × ℚ × ℚ :=
  match current_line with
  | [] => ([], 0, 0)
  | w0 :: _ => (joinSpace ((sortWordsX current_line).map Word.text), w0.x0, w0.y0)

/-- The clustering loop of _extract_lines_from_page, translated
statement by statement: the reference y of a cluster is the y0 of its
first word and is not updated as the cluster grows. -/
def linesLoop (y_tolerance : ℚ) (lines : List (Str × ℚ × ℚ))
    (current_line : List Word) (current_y : Option ℚ) :
    List Word → List (Str × ℚ × ℚ)
  | [] => if current_line.isEmpty then lines else lines ++ [renderLine current_line]
  | word :: ws =>
    match current_y with
    | none => linesLoop y_tolerance lines [word] (some word.y0) ws
    | some cy =>
      if yClose word.y0 cy y_tolerance then
        linesLoop y_tolerance lines (current_line ++ [word]) (some cy) ws
      else
        linesLoop y_tolerance (lines ++ [renderLine current_line]) [word] (some word.y0) ws

/-- SiscanReportExtractor._extract_lines_from_page: raises
EmptyDocumentError when the page has no words, otherwise reconstructs
lines from the (y0, x0)-sorted words. -/
def extract_lines_from_page (words : List Word) (y_tolerance : ℚ) :
    Except PyExn (List (Str × ℚ × ℚ)) :=
  if words.isEmpty then Except.error PyExn.emptyDocumentError
  else Except.ok (linesLoop y_tolerance [] [] none (sortWordsYX words))

/-- The clusters of words the loop builds, as lists of words (a
specification-side companion of linesLoop used to state and prove
conservation properties). -/
def clusterLoop (y_tolerance : ℚ) (current : List Word) (cy : ℚ) :
    List Word → List (List Word)
  | [] => [current]
  | w :: ws =>
    if yClose w.y0 cy y_tolerance then clusterLoop y_tolerance (current ++ [w]) cy ws
    else current :: clusterLoop y_tolerance [w] w.y0 ws

/-- All clusters of a word sequence. -/
def clustersOf (y_tolerance : ℚ) : List Word → List (List Word)
  | [] => []
  | w :: ws => clusterLoop y_tolerance [w] w.y0 ws

/-- One entry of get_sections_all(): expected fields, subsection labels
and the optional reference x0 of subsections. -/
structure SectionSpec where
  fields : List Str
  subsections : List Str
  subsections_coordinate_x0 : Option ℚ
deriving DecidableEq

/-- The configuration a concrete extractor supplies through its
get_sections_all / get_fields / get_ignore_lines overrides.  get_fields
and get_sections_all build and return fresh literals on every call; the
parser calls get_fields() once per page, so fields is the per-page
working label set template. -/
structure ExtractorConfig where
  sections_all : List (Str × SectionSpec)
  fields : List (Option Str × List Str)
  ignore_lines : List Str

/-- Python truthiness of an Optional[str]: None and '' are falsy. -/
def optStrTruthy : Option Str → Bool
  | some s => !s.isEmpty
  | none => false

/-- Python truthiness of fields_dict.get(k): false when the key is absent
or its list is empty. -/
def fieldsTruthy (d : List (Option Str × List Str)) (k : Option Str) : Bool :=
  match dictGet d k with
  | some l => !l.isEmpty
  | none => false

/-- The state threaded through _extract_labeled_field: the mutated
fields_dict, extracted_lines and data, and the running clean_line.
match_log is ghost instrumentation (it influences nothing): it records,
per successful label match, the section under which the label matched and
the matched field name, so that claims about labels being matched at most
once can be stated. -/
structure ElfOut where
  fields_dict : List (Option Str × List Str)
  extracted_lines : List Str
  data : List (Str × Option Str)
  clean_line : Str
  match_log : List (Option Str × Str)
deriving DecidableEq

/-- One iteration of the `for field, value in data_extracted.items()` loop
of _extract_labeled_field: the colon-in-value override (re-running
extract_key_value_pairs on the current clean_line and taking the first
value, where next() on an empty dict raises StopIteration), the data
write, the removal of value and label from clean_line, and the removal of
the label (with colon, else without, else ValueError) from the working
label set. -/
def elfItemStep (section_name : Option Str) (section_name_key : Str)
    (st : ElfOut) (fv : Str × Option Str) : Except PyExn ElfOut := do
  let field := fv.1
  let value ←
    match fv.2 with
    | some v =>
      if !v.isEmpty && ':' ∈ v then
        match extract_key_value_pairs st.clean_line with
        | [] => Except.error PyExn.stopIteration
        | kv :: _ => pure (some kv.2)
      else pure (some v)
    | none => pure (none : Option Str)
  let data := dictSet st.data (section_name_key ++ normalize field) value
  let clean_line :=
    match value with
    | some v => if !v.isEmpty then pyStrip (replaceAll st.clean_line v []) else st.clean_line
    | none => st.clean_line
  match dictGet st.fields_dict section_name with
  | none => Except.error PyExn.keyError
  | some lst =>
    match removeFirst lst (field ++ [':']) with
    | some lst' =>
      pure ⟨dictSet st.fields_dict section_name lst', st.extracted_lines, data,
            pyStrip (replaceAll clean_line (field ++ [':']) []),
            st.match_log ++ [(section_name, field)]⟩
    | none =>
      match removeFirst lst field with
      | some lst' =>
        pure ⟨dictSet st.fields_dict section_name lst', st.extracted_lines, data,
              pyStrip (replaceAll clean_line field []),
              st.match_log ++ [(section_name, field)]⟩
      | none => Except.error PyExn.valueError

/-- SiscanReportExtractor._extract_labeled_field: when the section has
pending labels, resolve them against the line with get_text_after_words;
on success mark the clean line extracted and process every matched item. -/
def extract_labeled_field (fields_dict : List (Option Str × List Str))
    (section_name : Option Str) (section_name_key : Str) (clean_line : Str)
    (extracted_lines : List Str) (data : List (Str × Option Str)) :
    Except PyExn ElfOut :=
  if fieldsTruthy fields_dict section_name then
    let data_extracted :=
      get_text_after_words clean_line ((dictGet fields_dict section_name).getD [])
    if data_extracted.isEmpty then
      Except.ok ⟨fields_dict, extracted_lines, data, clean_line, []⟩
    else
      data_extracted.foldlM (elfItemStep section_name section_name_key)
        ⟨fields_dict, setAdd extracted_lines clean_line, data, clean_line, []⟩
  else Except.ok ⟨fields_dict, extracted_lines, data, clean_line, []⟩

/-- The per-page parser state of _process_report's line loop.  match_log
is the page's ghost label-match instrumentation (see ElfOut). -/
structure PageState where
  fields_dict : List (Option Str × List Str)
  section_name : Option Str
  section_name_key : Str
  subsection_name : Option Str
  extract_key_value : Bool
  reading_multiple_lines_content : Bool
  previous_y0 : ℚ
  data : List (Str × Option Str)
  extracted_lines : List Str
  match_log : List (Option Str × Str)
deriving DecidableEq

/-- Lines 529-547 of base.py, shared by the subsection and plain branches:
mark the raw line extracted, then either store/extend the unlabeled
content under the underscore-trimmed current key (appending "; " + line
and setting the continuation flag when the key already holds a value), or
deepen the key path with the normalized line and clear extract_key_value. -/
def sectionTail (line : Str) (y0 : ℚ) (st : PageState) (is_subsection : Bool)
    (clean_line : Str) : PageState :=
  let extracted := setAdd st.extracted_lines line
  if !st.extract_key_value && !is_subsection then
    let key := rstripChar '_' st.section_name_key
    match dictGet st.data key with
    | some (some v) =>
      { st with
        extracted_lines := extracted
        section_name_key := key
        reading_multiple_lines_content := true
        data := dictSet st.data key (some (v ++ "; ".toList ++ clean_line))
        previous_y0 := y0 }
    | _ =>
      { st with
        extracted_lines := extracted
        section_name_key := key
        data := dictSet st.data key (some clean_line)
        previous_y0 := y0 }
  else
    { st with
      extracted_lines := extracted
      section_name_key := st.section_name_key ++ normalize clean_line ++ "__".toList
      extract_key_value := false
      previous_y0 := y0 }

/-- Lines 465-547 of base.py (the `if section_name:` block): subsection
detection by reference x0, field extraction by declared section fields or
by the generic key:value pattern, the key-value write branch, and the
subsection / unlabeled-content else branch.  Reading a subsection line
containing a colon before any subsection was named passes None to
TextUtils.normalize, which raises TypeError. -/
def sectionBlock (cfg : ExtractorConfig) (line : Str) (x0 y0 : ℚ)
    (st : PageState) (sname : Str) (clean_line : Str) :
    Except PyExn PageState := do
  match dictGet cfg.sections_all sname with
  | none => Except.error PyExn.attributeError
  | some spec =>
    let is_subsection : Bool :=
      match spec.subsections_coordinate_x0 with
      | some v => decide (¬v = 0 ∧ v = x0)
      | none => false
    let data_extracted₁ : List (Str × Option Str) :=
      if !spec.fields.isEmpty then get_text_after_words clean_line spec.fields
      else []
    let data_extracted :=
      if data_extracted₁.isEmpty && !is_subsection then
        (extract_key_value_pairs clean_line).map (fun kv => (kv.1, some kv.2))
      else data_extracted₁
    if !st.reading_multiple_lines_content && !data_extracted.isEmpty then
      pure { st with
        extract_key_value := true
        extracted_lines := setAdd st.extracted_lines line
        data := data_extracted.foldl
          (fun d kv => dictSet d (st.section_name_key ++ normalize kv.1) kv.2) st.data
        previous_y0 := y0 }
    else
      if is_subsection then
        if ¬(':' ∈ clean_line) then
          let st := { st with
            subsection_name := some clean_line
            reading_multiple_lines_content := false
            section_name_key := normalize sname ++ "__".toList }
          pure (sectionTail line y0 st is_subsection (replaceAll clean_line [':'] []))
        else
          match st.subsection_name with
          | none => Except.error PyExn.typeError
          | some sub =>
            let newKey := normalize sname ++ "__".toList ++ normalize sub ++ "__".toList
            let st := { st with section_name_key := newKey }
            pure (sectionTail line y0 st is_subsection (replaceAll clean_line [':'] []))
      else
        pure (sectionTail line y0 st is_subsection clean_line)

/-- Folding the four outputs of one _extract_labeled_field call back into
the page state (the Python mutations of fields_dict, extracted_lines and
data, plus the ghost log concatenation). -/
def applyElf (st : PageState) (out : ElfOut) : PageState :=
  { st with
    fields_dict := out.fields_dict
    extracted_lines := out.extracted_lines
    data := out.data
    match_log := st.match_log ++ out.match_log }

/-- The second half of _process_report's line loop body, after the
general-label pass: the section-scoped _extract_labeled_field call and the
`if section_name:` block. -/
def plTail (cfg : ExtractorConfig) (line : Str) (x0 y0 : ℚ) (st : PageState)
    (clean_line : Str) : Except PyExn PageState := do
  let (st, clean_line) ←
    if fieldsTruthy st.fields_dict st.section_name then do
      let out ← extract_labeled_field st.fields_dict st.section_name
        st.section_name_key clean_line st.extracted_lines st.data
      pure (applyElf st out, out.clean_line)
    else pure (st, clean_line)
  if optStrTruthy st.section_name then
    sectionBlock cfg line x0 y0 st (st.section_name.getD []) clean_line
  else
    pure { st with previous_y0 := y0 }

/-- One iteration of _process_report's `for line, x0, y0 in lines` loop. -/
def processLine (cfg : ExtractorConfig) (st : PageState) (lxy : Str × ℚ × ℚ) :
    Except PyExn PageState := do
  let line := lxy.1
  let x0 := lxy.2.1
  let y0 := lxy.2.2
  let clean_line := pyStrip line
  if clean_line ∈ cfg.ignore_lines then
    pure { st with
      extracted_lines := setAdd st.extracted_lines line
      previous_y0 := y0 }
  else if clean_line ∈ cfg.sections_all.map Prod.fst then
    pure { st with
      extracted_lines := setAdd st.extracted_lines line
      section_name := some clean_line
      section_name_key := normalize clean_line ++ "__".toList
      previous_y0 := y0
      reading_multiple_lines_content := false }
  else do
    let (st, clean_line, fully_consumed) ←
      if fieldsTruthy st.fields_dict none then do
        let out ← extract_labeled_field st.fields_dict none "geral__".toList
          clean_line st.extracted_lines st.data
        pure (applyElf st out, out.clean_line, out.clean_line.isEmpty)
      else pure (st, clean_line, false)
    if fully_consumed then
      pure { st with previous_y0 := y0 }
    else
      plTail cfg line x0 y0 st clean_line

/-- The fresh per-page parser state: fields_dict is the fresh return of
get_fields(), previous_y0 is lines[0][-1]. -/
def initPageState (cfg : ExtractorConfig) (extracted : List Str) (firstY : ℚ) :
    PageState :=
  { fields_dict := cfg.fields
    section_name := none
    section_name_key := []
    subsection_name := none
    extract_key_value := false
    reading_multiple_lines_content := false
    previous_y0 := firstY
    data := []
    extracted_lines := extracted
    match_log := [] }

/-- The line loop of _process_report over one page's reconstructed lines.
previous_y0 = lines[0][-1] raises IndexError on an empty list (unreachable:
_save_to_text already rejected empty pages). -/
def pageLineLoop (cfg : ExtractorConfig) (lines : List (Str × ℚ × ℚ))
    (extracted : List Str) : Except PyExn PageState :=
  match lines with
  | [] => Except.error PyExn.indexError
  | l0 :: _ => lines.foldlM (processLine cfg) (initPageState cfg extracted l0.2.2)

/-- The accumulator of _process_report across the pages of one document:
extracted_lines is created once per document and shared by all its pages;
pages_pending_lines and pages_data are the emitted outputs. -/
structure ReportAcc where
  extracted_lines : List Str
  pages_pending_lines : List (Nat × List Str)
  pages_data : List (List (Str × Option Str))
  match_log : List (Nat × Option Str × Str)
deriving DecidableEq

/-- Line 549 of base.py: pending_lines = set([l[0] for l in lines]) -
extracted_lines, the page texts absent from the document-wide extracted
set. -/
def pendingOf (lines : List (Str × ℚ × ℚ)) (extracted : List Str) : List Str :=
  (pySetOf (lines.map (fun l => l.1))).filter (fun t => !decide (t ∈ extracted))

/-- One page of _process_report: reconstruct lines (y_tolerance=3),
_save_to_text (raises EmptyDocumentError on an empty line list; the file
write itself is I/O and does not affect the parse), run the line loop,
then record set(line texts) - extracted_lines as the page's pending lines
(only when non-empty) and append the page's data record. -/
def reportPage (cfg : ExtractorConfig) (acc : ReportAcc) (page_number : Nat)
    (page : List Word) : Except PyExn ReportAcc := do
  let lines ← extract_lines_from_page page 3
  if lines.isEmpty then Except.error PyExn.emptyDocumentError
  else do
    let st ← pageLineLoop cfg lines acc.extracted_lines
    let pending_lines := pendingOf lines st.extracted_lines
    pure { extracted_lines := st.extracted_lines
           pages_pending_lines := acc.pages_pending_lines ++
             (if pending_lines.isEmpty then [] else [(page_number, pending_lines)])
           pages_data := acc.pages_data ++ [st.data]
           match_log := acc.match_log ++ st.match_log.map (fun e => (page_number, e)) }

/-- The 0-based indices of the pages _process_report iterates: all pages,
or the 1-based selected pages filtered to the valid range. -/
def pageIndices (selected_pages : Option (List Nat)) (total_pages : Nat) :
    List Nat :=
  match selected_pages with
  | none => List.range total_pages
  | some ps => (ps.filter (fun p => decide (1 ≤ p ∧ p ≤ total_pages))).map (· - 1)

/-- SiscanReportExtractor._process_report on one document, modelled as the
list of its pages (each a list of words), exposing the full accumulator:
the document-wide extracted_lines, the pending-lines map (keyed by 1-based
page number), the per-page records (the DataFrame's rows) and the ghost
match log.  The JSON dump of pages_data is I/O and not modelled. -/
def reportRun (cfg : ExtractorConfig) (pages : List (List Word))
    (selected_pages : Option (List Nat)) : Except PyExn ReportAcc :=
  (pageIndices selected_pages pages.length).foldlM
    (fun acc i =>
      match pages.get? i with
      | some page => reportPage cfg acc (i + 1) page
      | none => Except.error PyExn.indexError)
    ⟨[], [], [], []⟩

/-- SiscanReportExtractor._process_report's return value. -/
def process_report (cfg : ExtractorConfig) (pages : List (List Word))
    (selected_pages : Option (List Nat)) :
    Except PyExn (List (Nat × List Str) × List (List (Str × Option Str))) := do
  let acc ← reportRun cfg pages selected_pages
  pure (acc.pages_pending_lines, acc.pages_data)

/-- One input document of process(): its file name, whether
PdfUtils.is_pdf_file accepts it (a file-content check, external to the
parser), and its pages as word lists. -/
structure PyDocument where
  name : Str
  is_pdf : Bool
  pages : List (List Word)

/-- pd.DataFrame(records).empty: true when there are no rows or no
columns (no record contributes any key). -/
def dfEmpty (records : List (List (Str × Option Str))) : Bool :=
  records.isEmpty || records.all (·.isEmpty)

/-- SiscanReportExtractor.process: iterate the input documents, skip
non-PDFs, run _process_report (exceptions propagate: there is no handler
around it), skip documents with an empty DataFrame, tag each record with
the file name and concatenate.  The temp-file renaming, page splitting and
Excel export are I/O and not modelled. -/
def process (cfg : ExtractorConfig) (selected_pages : Option (List Nat))
    (docs : List PyDocument) :
    Except PyExn
      (List (Str × List (Nat × List Str)) × List (List (Str × Option Str))) :=
  docs.foldlM
    (fun acc doc => do
      if !doc.is_pdf then pure acc
      else do
        let (ppl, recs) ← process_report cfg doc.pages selected_pages
        if dfEmpty recs then pure acc
        else
          pure (acc.1 ++ [(doc.name, ppl)],
                acc.2 ++ recs.map (fun r => dictSet r "file".toList (some doc.name))))
    ([], [])


/-- The character class of normalize's output: lowercase ASCII letters,
digits and underscore. -/
def goodChar (c : Char) : Bool :=
  let n := c.toNat
  (97 ≤ n && n ≤ 122) || (48 ≤ n && n ≤ 57) || n == 95


/-- C5 as stated: for any line and any two permutations of the same label
list, all of whose labels occur in the line, get_text_after_words returns
the same label-to-value mapping (mappings compared pointwise, as Python
dict equality does). -/
def claimC5 : Prop :=
  ∀ (text : Str) (l1 l2 : List Str), l1.Perm l2 →
    (∀ lab ∈ l1, findSub lab text ≠ none) →
    ∀ k, dictGet (get_text_after_words text l1) k =
         dictGet (get_text_after_words text l2) k


/-- The value formula of claim C6, written from the specification's words:
for the labels found in the line, sorted by first-occurrence start offset,
label i is bound to the substring of the line from the end of its match to
the start of label i+1's match (end of line for the last), trimmed, with
an empty trimmed result recorded as None. -/
def specBindings (text : Str) : List (Str × Nat × Nat) → List (Str × Option Str)
  | [] => []
  | (key, _, e) :: rest =>
    let next_start : Nat :=
      match rest with
      | (_, s2, _) :: _ => s2
      | [] => text.length
    let raw := pyStrip ((text.drop e).take (next_start - e))
    (key, if raw.isEmpty then none else some raw) :: specBindings text rest

/-- C6 as stated: every found label is bound in the result to the value
given by the positional formula, and only keys of found labels appear. -/
def claimC6 : Prop :=
  ∀ (text : Str) (labels : List Str),
    (∀ kv ∈ specBindings text (gtawSorted text labels),
       dictGet (get_text_after_words text labels) kv.1 = some kv.2) ∧
    (∀ k, dictGet (get_text_after_words text labels) k ≠ none →
       k ∈ (gtawPositions text labels).map (fun p => p.1))

/-- C8 as stated: the reconstructed lines are the rendered clusters, and
each Line carries the x0 (and y0) of the leftmost (smallest-x0) word of
its cluster, its text being the space-joined x0-ascending concatenation
of the cluster's words. -/
def claimC8 : Prop :=
  ∀ (words : List Word) (tol : ℚ), words ≠ [] →
    extract_lines_from_page words tol =
      Except.ok ((clustersOf tol (sortWordsYX words)).map renderLine) ∧
    ∀ c ∈ clustersOf tol (sortWordsYX words),
      ((renderLine c).1 = joinSpace ((sortWordsX c).map Word.text) ∧
       ∀ w ∈ c, (renderLine c).2.1 ≤ w.x0)

/-- C2 as stated: an EmptyDocument failure on one document's page is fatal
only for that page and does not abort a multi-document run: prepending a
valid PDF containing an empty page to a document list that processes
successfully still yields a successful run. -/
def claimC2 : Prop :=
  ∀ (cfg : ExtractorConfig) (d : PyDocument) (rest : List PyDocument),
    d.is_pdf = true → (∃ p ∈ d.pages, p = []) →
    (process cfg none rest).isOk = true →
    (process cfg none (d :: rest)).isOk = true

/-- Fixture for claim C4: a one-section configuration. -/
def c4spec : SectionSpec := ⟨[], [], none⟩

/-- Fixture for claim C4. -/
def c4cfg : ExtractorConfig := ⟨[("B".toList, c4spec)], [], []⟩

/-- Fixture for claim C4: the section title is also an ignored line. -/
def c4cfgIgnore : ExtractorConfig := ⟨[("B".toList, c4spec)], [], ["B".toList]⟩

/-- Fixture for claim C4: a mid-parse state with a current subsection and
the continuation flag set. -/
def c4st : PageState :=
  ⟨[], some "A".toList, "a__".toList, some "S".toList, false, true, 0, [], [], []⟩

/-- C4 as stated: whenever a parsed line (trimmed) equals a declared
section title, the parser sets currentSection to that title, resets the
key to normalize(section) ++ "__", and clears both the current subsection
and the multi-line continuation flag. -/
def claimC4 : Prop :=
  ∀ (cfg : ExtractorConfig) (st : PageState) (line : Str) (x0 y0 : ℚ)
    (st' : PageState),
    pyStrip line ∈ cfg.sections_all.map Prod.fst →
    processLine cfg st (line, x0, y0) = Except.ok st' →
    st'.section_name = some (pyStrip line) ∧
    st'.section_name_key = normalize (pyStrip line) ++ "__".toList ∧
    st'.subsection_name = none ∧
    st'.reading_multiple_lines_content = false

/-- Claim C1 as stated: on every page of a successful run, any line text
that the parser's own steps on that page do not consume (the page's line
loop run from an empty extracted set) appears in that page's pending-lines
entry. -/
def claimC1 : Prop :=
  ∀ (cfg : ExtractorConfig) (pages : List (List Word))
    (selected : Option (List Nat)) (acc : ReportAcc),
    reportRun cfg pages selected = Except.ok acc →
    ∀ i ∈ pageIndices selected pages.length,
    ∀ page, pages.get? i = some page →
    ∀ lines, extract_lines_from_page page 3 = Except.ok lines →
    ∀ stF, pageLineLoop cfg lines [] = Except.ok stF →
    ∀ t ∈ lines.map (fun l => l.1), t ∉ stF.extracted_lines →
    ∃ pend, (i + 1, pend) ∈ acc.pages_pending_lines ∧ t ∈ pend

/-- A one-section configuration refuting C1. -/
def c1cfg : ExtractorConfig :=
  ⟨[("SEC".toList, ⟨[], [], none⟩)], [], []⟩

/-- Two pages: page 1 reads "SEC" then "X" (both consumed: section title,
then unlabeled section content), page 2 reads "X" alone, which no step of
page 2 consumes. -/
def c1pages : List (List Word) :=
  [[⟨10, 0, 15, 5, "SEC".toList⟩, ⟨10, 20, 15, 25, "X".toList⟩],
   [⟨10, 0, 15, 5, "X".toList⟩]]

/-- Witness fixtures for the amended C1: one page with the single word
"Y", which nothing consumes, against the empty accumulator. -/
def c1wPage : List Word := [⟨10, 0, 15, 5, "Y".toList⟩]

/-- The reconstructed lines of c1wPage. -/
def c1wLines : List (Str × ℚ × ℚ) := [("Y".toList, 10, 0)]

/-- The end-of-page state of c1wPage's line loop. -/
def c1wSt : PageState := ⟨[], none, [], none, false, false, 0, [], [], []⟩

/-- reportPage's output on c1wPage: "Y" is pending on page 1. -/
def c1wAcc : ReportAcc := ⟨[], [(1, ["Y".toList])], [[]], []⟩

/-- Claim C10 as stated: a document all of whose pages yield at least one
word produces exactly one record per processed page. -/
def claimC10 : Prop :=
  ∀ (cfg : ExtractorConfig) (pages : List (List Word))
    (selected : Option (List Nat)),
    (∀ p ∈ pages, p ≠ []) →
    ∃ pend recs, process_report cfg pages selected = Except.ok (pend, recs) ∧
      recs.length = (pageIndices selected pages.length).length

/-- A configuration refuting C10: one section with a subsection reference
x0 of 36. -/
def c10cfg : ExtractorConfig :=
  ⟨[("RE".toList, ⟨[], [], some 36⟩)], [], []⟩

/-- One non-empty page: the section title, then a colon-bearing line at
the subsection x0 before any subsection was named - _process_report passes
subsection_name = None to normalize, raising TypeError. -/
def c10pages : List (List Word) :=
  [[⟨10, 0, 15, 5, "RE".toList⟩, ⟨36, 10, 41, 15, "Algo:".toList⟩,
    ⟨50, 10, 55, 15, "x".toList⟩]]

/-- Witness fixtures for the amended C10: two one-word pages neither of
which matches any rule. -/
def c10wPages : List (List Word) :=
  [[⟨10, 0, 15, 5, "Y".toList⟩], [⟨10, 0, 15, 5, "Z".toList⟩]]

/-- reportRun's output on c10wPages: one (empty) record per page. -/
def c10wAcc : ReportAcc :=
  ⟨[], [(1, ["Y".toList]), (2, ["Z".toList])], [[], []], []⟩

/-- The proof invariant tying the working label set to the ghost match
log: every scope's labels have pairwise-distinct colon-stripped keys, no
(scope, field) pair was logged twice, and a logged field is no longer
among the keys of its scope's remaining labels. -/
def labelInv (st : PageState) : Prop :=
  (∀ kv ∈ st.fields_dict, ((kv.2.map (rstripChar ':')).Nodup)) ∧
  st.match_log.Nodup ∧
  (∀ e ∈ st.match_log, ∀ lst, dictGet st.fields_dict e.1 = some lst →
      e.2 ∉ lst.map (rstripChar ':'))

/-- Claim C3 as stated: over a whole document (all pages of one
reportRun), no (scope, label) pair is matched twice, assuming the declared
labels of each scope have pairwise-distinct colon-stripped keys. -/
def claimC3 : Prop :=
  ∀ (cfg : ExtractorConfig),
    (∀ kv ∈ cfg.fields, ((kv.2.map (rstripChar ':')).Nodup)) →
    ∀ (pages : List (List Word)) (selected : Option (List Nat))
      (acc : ReportAcc),
      reportRun cfg pages selected = Except.ok acc →
      (acc.match_log.map (fun e => (e.2.1, e.2.2))).Nodup

/-- A configuration refuting C3: one global label. -/
def c3cfg : ExtractorConfig :=
  ⟨[], [(none, ["Emissão:".toList])], []⟩

/-- Two pages of the same document, each carrying the global label - the
label set is re-cloned per page, so the label matches on both pages. -/
def c3pages : List (List Word) :=
  [[⟨10, 0, 15, 5, "Emissão:".toList⟩, ⟨40, 0, 45, 5, "01/01/2023".toList⟩,],
   [⟨10, 0, 15, 5, "Emissão:".toList⟩, ⟨40, 0, 45, 5, "02/02/2023".toList⟩]]

/-- Witness fixtures for the amended C3: one page with one labeled line. -/
def c3wLines : List (Str × ℚ × ℚ) :=
  [("Emissão: 01/01/2023".toList, 10, 0)]

/-- The end-of-page state of c3wLines under c3cfg: the label matched once
and was removed from the (cloned) working set. -/
def c3wSt : PageState :=
  ⟨[(none, [])], none, [], none, false, false, 0,
   [("geral__emissao".toList, some "01/01/2023".toList)],
   ["Emissão: 01/01/2023".toList], [(none, "Emissão".toList)]⟩

/-! ## Helper lemmas -/

theorem ordIns_perm {α : Type} (le : α → α → Bool) (a : α) (l : List α) :
    (ordIns le a l).Perm (a :: l) := by
  induction l with
  | nil => exact List.Perm.refl _
  | cons b l ih =>
    simp only [ordIns]
    split
    · exact List.Perm.refl _
    · exact (ih.cons b).trans (List.Perm.swap a b l)

theorem stableSort_perm {α : Type} (le : α → α → Bool) (l : List α) :
    (stableSort le l).Perm l := by
  induction l with
  | nil => exact List.Perm.refl _
  | cons a l ih => exact (ordIns_perm le a (stableSort le l)).trans (ih.cons a)

theorem mem_ordIns {α : Type} {le : α → α → Bool} {a x : α} {l : List α} :
    x ∈ ordIns le a l ↔ x = a ∨ x ∈ l := by
  have h := (ordIns_perm le a l).mem_iff (a := x)
  simpa using h

theorem ordIns_pairwise {α : Type} {le : α → α → Bool}
    (htot : ∀ a b, le a b = true ∨ le b a = true)
    (htrans : ∀ a b c, le a b = true → le b c = true → le a c = true)
    (a : α) {l : List α} (hl : l.Pairwise (fun x y => le x y = true)) :
    (ordIns le a l).Pairwise (fun x y => le x y = true) := by
  induction l with
  | nil => simp [ordIns]
  | cons b l ih =>
    simp only [ordIns]
    rcases List.pairwise_cons.mp hl with ⟨hb, hl'⟩
    split
    · rename_i hab
      refine List.pairwise_cons.mpr ⟨?_, hl⟩
      intro y hy
      rcases hy with _ | hy
      · exact hab
      · exact htrans a b y hab (hb y (by assumption))
    · rename_i hab
      have hba : le b a = true := by
        rcases htot a b with h | h
        · exact absurd h hab
        · exact h
      refine List.pairwise_cons.mpr ⟨?_, ih hl'⟩
      intro y hy
      rcases mem_ordIns.mp hy with rfl | hy
      · exact hba
      · exact hb y hy

theorem stableSort_pairwise {α : Type} {le : α → α → Bool}
    (htot : ∀ a b, le a b = true ∨ le b a = true)
    (htrans : ∀ a b c, le a b = true → le b c = true → le a c = true)
    (l : List α) :
    (stableSort le l).Pairwise (fun x y => le x y = true) := by
  induction l with
  | nil => simp [stableSort]
  | cons a l ih => exact ordIns_pairwise htot htrans a ih

theorem findValueEndFuel_spec (text : Str) (fuel : Nat) : ∀ s,
    findValueEndFuel text fuel s = text.length ∨ s ≤ findValueEndFuel text fuel s := by
  induction fuel with
  | zero => intro s; left; rfl
  | succ fuel ih =>
    intro s
    rw [findValueEndFuel]
    split
    · left; rfl
    · split
      · right; exact Nat.le_refl s
      · rcases ih (s + 1) with h | h
        · left; exact h
        · right; omega

theorem findValueEnd_spec (text : Str) (s : Nat) :
    findValueEnd text s = text.length ∨ s ≤ findValueEnd text s :=
  findValueEndFuel_spec text (text.length + 1) s

theorem ekvpMatchAt_gt {text : Str} {p : Nat} {kve : Str × Str × Nat}
    (h : ekvpMatchAt text p = some kve) : p < kve.2.2 ∧ p < text.length := by
  unfold ekvpMatchAt at h
  split at h
  · exact absurd h (by simp)
  · rename_i c rest hdrop
    have hp : p < text.length := by
      by_contra hle
      have : text.drop p = [] := List.drop_eq_nil_of_le (by omega)
      rw [this] at hdrop
      exact absurd hdrop (by simp)
    split at h
    · exact absurd h (by simp)
    · split at h
      · exact absurd h (by simp)
      · rename_i qrel _
        simp only [Option.some.injEq] at h
        subst h
        rcases findValueEnd_spec text (p + 1 + qrel + 1 +
            ((text.drop (p + 1 + qrel + 1)).takeWhile isPySpace).length) with h | h
        · simp only [h]
          exact ⟨hp, hp⟩
        · refine ⟨by simp only []; omega, hp⟩


theorem yClose_eq (a cy tol : ℚ) : yClose a cy tol = decide (|a - cy| ≤ tol) := by
  rw [yClose]
  apply decide_eq_decide.mpr
  have had : (0:ℚ) < (a.den : ℚ) := by exact_mod_cast a.pos
  have hcd : (0:ℚ) < (cy.den : ℚ) := by exact_mod_cast cy.pos
  have htd : (0:ℚ) < (tol.den : ℚ) := by exact_mod_cast tol.pos
  have hD : (0:ℚ) < (a.den : ℚ) * cy.den := mul_pos had hcd
  have hsub : a - cy = ((a.num * cy.den - cy.num * a.den : ℤ) : ℚ) / ((a.den : ℚ) * cy.den) := by
    conv_lhs => rw [← Rat.num_div_den a, ← Rat.num_div_den cy]
    rw [div_sub_div _ _ (ne_of_gt had) (ne_of_gt hcd)]
    push_cast
    ring_nf
  have h2 : |a - cy| ≤ tol ↔
      |((a.num * cy.den - cy.num * a.den : ℤ) : ℚ)| * tol.den ≤
        (tol.num : ℚ) * ((a.den : ℚ) * cy.den) := by
    rw [hsub, abs_div, abs_of_pos hD]
    conv_lhs => rw [← Rat.num_div_den tol]
    rw [div_le_div_iff₀ hD htd]
  rw [h2]
  rw [show ((a.num * cy.den - cy.num * a.den).natAbs : ℤ) =
      |a.num * cy.den - cy.num * a.den| from (Int.abs_eq_natAbs _).symm]
  constructor <;> intro h <;> exact_mod_cast h

theorem toNat_ofNatAux (n : Nat) (h : n.isValidChar) :
    (Char.ofNatAux n h).toNat = n := rfl

theorem goodChar_toLowerChar {c : Char} (h : isWordChar c = true) :
    goodChar (toLowerChar c) = true := by
  unfold toLowerChar
  split
  · rename_i hr
    simp only [goodChar, toNat_ofNatAux]
    simp only [Bool.or_eq_true, Bool.and_eq_true, decide_eq_true_eq, beq_iff_eq]
    omega
  · rename_i hr
    simp only [isWordChar, Bool.or_eq_true, Bool.and_eq_true, decide_eq_true_eq,
      beq_iff_eq] at h
    simp only [goodChar, Bool.or_eq_true, Bool.and_eq_true, decide_eq_true_eq,
      beq_iff_eq]
    omega

theorem goodChar_mem_normalize {s : Str} {c : Char} (h : c ∈ normalize s) :
    goodChar c = true := by
  unfold normalize at h
  rcases List.mem_map.mp h with ⟨d, hd, rfl⟩
  exact goodChar_toLowerChar (List.of_mem_filter hd)

theorem nfdChar_good {c : Char} (h : goodChar c = true) : nfdChar c = [c] := by
  simp only [goodChar, Bool.or_eq_true, Bool.and_eq_true, decide_eq_true_eq,
    beq_iff_eq] at h
  unfold nfdChar
  split <;> first | rfl | omega

theorem goodChar_arith {c : Char} (h : goodChar c = true) :
    c.toNat < 128 ∧ isPySpace c = false ∧ isWordChar c = true := by
  simp only [goodChar, Bool.or_eq_true, Bool.and_eq_true, decide_eq_true_eq,
    beq_iff_eq] at h
  refine ⟨by omega, ?_, ?_⟩
  · rw [Bool.eq_false_iff]
    intro hsp
    simp only [isPySpace, Bool.or_eq_true, Bool.and_eq_true, decide_eq_true_eq,
      beq_iff_eq] at hsp
    omega
  · simp only [isWordChar, Bool.or_eq_true, Bool.and_eq_true, decide_eq_true_eq,
      beq_iff_eq]
    omega

theorem toLowerChar_good {c : Char} (h : goodChar c = true) :
    toLowerChar c = c := by
  simp only [goodChar, Bool.or_eq_true, Bool.and_eq_true, decide_eq_true_eq,
    beq_iff_eq] at h
  have hn : ¬(65 ≤ c.toNat ∧ c.toNat ≤ 90) := by omega
  simp [toLowerChar, hn]

theorem pyNFD_good {s : Str} (h : ∀ c ∈ s, goodChar c = true) : pyNFD s = s := by
  induction s with
  | nil => rfl
  | cons c t ih =>
    simp only [pyNFD, List.flatMap_cons]
    rw [nfdChar_good (h c (by simp))]
    have := ih (fun c hc => h c (by simp [hc]))
    simp only [pyNFD] at this
    simp [this]

theorem asciiOnly_good {s : Str} (h : ∀ c ∈ s, goodChar c = true) :
    asciiOnly s = s := by
  unfold asciiOnly
  apply List.filter_eq_self.mpr
  intro c hc
  simpa using (goodChar_arith (h c hc)).1

theorem collapseWS_good {s : Str} (h : ∀ c ∈ s, goodChar c = true) :
    collapseWS s = s := by
  unfold collapseWS
  induction s with
  | nil => rfl
  | cons c t ih =>
    simp only [collapseWSAux]
    rw [(goodChar_arith (h c (by simp))).2.1]
    simp only [Bool.false_eq_true, if_false]
    rw [ih (fun c hc => h c (by simp [hc]))]

theorem filterWord_good {s : Str} (h : ∀ c ∈ s, goodChar c = true) :
    s.filter isWordChar = s :=
  List.filter_eq_self.mpr (fun c hc => (goodChar_arith (h c hc)).2.2)

theorem mapLower_good {s : Str} (h : ∀ c ∈ s, goodChar c = true) :
    s.map toLowerChar = s := by
  induction s with
  | nil => rfl
  | cons c t ih =>
    simp only [List.map_cons]
    rw [toLowerChar_good (h c (by simp)), ih (fun c hc => h c (by simp [hc]))]

theorem normalize_good {s : Str} (h : ∀ c ∈ s, goodChar c = true) :
    normalize s = s := by
  unfold normalize
  rw [pyNFD_good h, asciiOnly_good h, collapseWS_good h, filterWord_good h,
    mapLower_good h]

theorem normalize_idem (s : Str) : normalize (normalize s) = normalize s :=
  normalize_good (fun _ hc => goodChar_mem_normalize hc)

/-! ## Claims -/

/-- C7: normalize is idempotent: for every string s,
normalize (normalize s) = normalize s; in particular
normalize "Data de Nascimento" = "data_de_nascimento". -/
theorem C7_normalize_idempotent :
    (∀ s : Str, normalize (normalize s) = normalize s) ∧
    normalize "Data de Nascimento".toList = "data_de_nascimento".toList :=
  ⟨normalize_idem, by decide⟩

/-- C5 counterexample: with labels "AB:" and "AB", which both first occur
at offset 0 of "AB: x", the two declaration orders give different
mappings ("AB" is bound to ": x" in one order and to "x" in the other),
because the stable sort by start offset leaves tied labels in declaration
order. -/
theorem C5_counterexample : ¬ claimC5 := by
  intro h
  have := h "AB: x".toList ["AB:".toList, "AB".toList] ["AB".toList, "AB:".toList]
    (by decide) (by decide) "AB".toList
  revert this
  decide

theorem startLT_antisymm : IsAntisymm (Str × Nat × Nat) (fun a b => a.2.1 < b.2.1) :=
  ⟨fun _ _ h1 h2 => absurd h1 (Nat.lt_asymm h2)⟩

theorem gtawSorted_perm_eq (text : Str) (l1 l2 : List Str) (hperm : l1.Perm l2)
    (hnd : ((gtawPositions text l1).map (fun p => p.2.1)).Nodup) :
    gtawSorted text l1 = gtawSorted text l2 := by
  have hposperm : (gtawPositions text l1).Perm (gtawPositions text l2) :=
    hperm.filterMap _
  have hs1 : (gtawSorted text l1).Perm (gtawPositions text l1) := stableSort_perm _ _
  have hs2 : (gtawSorted text l2).Perm (gtawPositions text l2) := stableSort_perm _ _
  have hperm12 : (gtawSorted text l1).Perm (gtawSorted text l2) :=
    (hs1.trans hposperm).trans hs2.symm
  have htot : ∀ a b : Str × Nat × Nat,
      (decide (a.2.1 ≤ b.2.1)) = true ∨ (decide (b.2.1 ≤ a.2.1)) = true := by
    intro a b
    simp only [decide_eq_true_eq]
    omega
  have htrans : ∀ a b c : Str × Nat × Nat, (decide (a.2.1 ≤ b.2.1)) = true →
      (decide (b.2.1 ≤ c.2.1)) = true → (decide (a.2.1 ≤ c.2.1)) = true := by
    intro a b c
    simp only [decide_eq_true_eq]
    omega
  have hnd1 : (gtawSorted text l1).Pairwise (fun a b => a.2.1 ≠ b.2.1) := by
    have := (List.pairwise_map.mp hnd)
    exact ((hs1.pairwise_iff (fun h => h.symm)).mpr this)
  have hnd2 : (gtawSorted text l2).Pairwise (fun a b => a.2.1 ≠ b.2.1) := by
    have h0 := (List.pairwise_map.mp hnd)
    have h2 : (gtawPositions text l2).Pairwise (fun a b => a.2.1 ≠ b.2.1) :=
      (hposperm.pairwise_iff (fun h => h.symm)).mp h0
    exact ((hs2.pairwise_iff (fun h => h.symm)).mpr h2)
  have hsort1 : (gtawSorted text l1).Pairwise (fun a b => a.2.1 < b.2.1) := by
    have hp := stableSort_pairwise htot htrans (gtawPositions text l1)
    exact (hp.and hnd1).imp (by
      intro a b hab
      rcases hab with ⟨h1, h2⟩
      simp only [decide_eq_true_eq] at h1
      omega)
  have hsort2 : (gtawSorted text l2).Pairwise (fun a b => a.2.1 < b.2.1) := by
    have hp := stableSort_pairwise htot htrans (gtawPositions text l2)
    exact (hp.and hnd2).imp (by
      intro a b hab
      rcases hab with ⟨h1, h2⟩
      simp only [decide_eq_true_eq] at h1
      omega)
  exact @List.eq_of_perm_of_sorted _ _ startLT_antisymm _ _ hperm12 hsort1 hsort2

/-- C5 amended: for any line and any two permutations of the same label
list, all of whose labels occur in the line at pairwise-distinct
first-occurrence start offsets, get_text_after_words returns the same
(identical) mapping.  (The original claim fails only when two labels tie
on their start offset, which requires one to be a prefix of the other.) -/
theorem C5_order_independence (text : Str) (l1 l2 : List Str)
    (hperm : l1.Perm l2) (_hocc : ∀ lab ∈ l1, findSub lab text ≠ none)
    (hnd : ((gtawPositions text l1).map (fun p => p.2.1)).Nodup) :
    get_text_after_words text l1 = get_text_after_words text l2 := by
  unfold get_text_after_words
  rw [gtawSorted_perm_eq text l1 l2 hperm hnd]

/-- C5 witness: the specification's own compound-line example, with two
different declaration orders of the three labels. -/
theorem C5_witness :
    get_text_after_words
      "Conselho: CRM-999 CNS: 999999999999999 Data da liberação do resultado: 24/01/2023".toList
      ["Data da liberação do resultado:".toList, "Conselho:".toList, "CNS:".toList] =
    get_text_after_words
      "Conselho: CRM-999 CNS: 999999999999999 Data da liberação do resultado: 24/01/2023".toList
      ["CNS:".toList, "Conselho:".toList, "Data da liberação do resultado:".toList] :=
  C5_order_independence _ _ _ (by decide) (by decide) (by decide)

/-- C6 counterexample: labels "A" and "A:" both strip to the key "A"; in
"A 1 A: 2" the positional formula gives "1" for the first found label, but
the returned mapping binds "A" to "2" (the later binding overwrote the
earlier one). -/
theorem C6_counterexample : ¬ claimC6 := by
  intro h
  have := (h "A 1 A: 2".toList ["A".toList, "A:".toList]).1
    ("A".toList, some "1".toList) (by decide)
  revert this
  decide

theorem dictGet_dictSet_self {κ ν : Type} [DecidableEq κ]
    (d : List (κ × ν)) (k : κ) (v : ν) : dictGet (dictSet d k v) k = some v := by
  induction d with
  | nil => simp [dictGet, dictSet]
  | cons p d ih =>
    by_cases h : p.1 = k
    · simp [dictSet, dictGet, h]
    · simp [dictSet, dictGet, h, ih]

theorem dictGet_dictSet_ne {κ ν : Type} [DecidableEq κ]
    (d : List (κ × ν)) (k k' : κ) (v : ν) (h : k ≠ k') :
    dictGet (dictSet d k v) k' = dictGet d k' := by
  induction d with
  | nil => simp [dictGet, dictSet, h]
  | cons p d ih =>
    by_cases hp : p.1 = k
    · simp [dictSet, dictGet, hp, h]
    · simp [dictSet, dictGet, hp, ih]

theorem dictGet_foldl_notmem {κ ν : Type} [DecidableEq κ]
    (bs : List (κ × ν)) (acc : List (κ × ν)) (k : κ)
    (h : k ∉ bs.map (fun p => p.1)) :
    dictGet (bs.foldl (fun d kv => dictSet d kv.1 kv.2) acc) k = dictGet acc k := by
  induction bs generalizing acc with
  | nil => rfl
  | cons b bs ih =>
    simp only [List.map_cons, List.mem_cons] at h
    push_neg at h
    simp only [List.foldl_cons]
    rw [ih _ h.2, dictGet_dictSet_ne _ _ _ _ (fun he => h.1 he.symm)]

theorem dictGet_foldl_mem {κ ν : Type} [DecidableEq κ]
    (bs : List (κ × ν)) (acc : List (κ × ν))
    (hnd : (bs.map (fun p => p.1)).Nodup) :
    ∀ kv ∈ bs, dictGet (bs.foldl (fun d kv => dictSet d kv.1 kv.2) acc) kv.1 = some kv.2 := by
  induction bs generalizing acc with
  | nil => intro kv h; exact absurd h (by simp)
  | cons b bs ih =>
    intro kv hkv
    simp only [List.map_cons, List.nodup_cons] at hnd
    rcases List.mem_cons.mp hkv with rfl | hm
    · simp only [List.foldl_cons]
      rw [dictGet_foldl_notmem _ _ _ hnd.1, dictGet_dictSet_self]
    · simp only [List.foldl_cons]
      exact ih _ hnd.2 kv hm

theorem dictGet_foldl_none {κ ν : Type} [DecidableEq κ]
    (bs : List (κ × ν)) (acc : List (κ × ν)) (k : κ)
    (h : dictGet (bs.foldl (fun d kv => dictSet d kv.1 kv.2) acc) k ≠ none) :
    dictGet acc k ≠ none ∨ k ∈ bs.map (fun p => p.1) := by
  by_cases hm : k ∈ bs.map (fun p => p.1)
  · right; exact hm
  · left
    rw [dictGet_foldl_notmem _ _ _ hm] at h
    exact h

theorem gtawLoop_eq_foldl (text : Str) (l : List (Str × Nat × Nat))
    (acc : List (Str × Option Str)) :
    gtawLoop text l acc =
      (specBindings text l).foldl (fun d kv => dictSet d kv.1 kv.2) acc := by
  induction l generalizing acc with
  | nil => rfl
  | cons p rest ih =>
    obtain ⟨key, s, e⟩ := p
    simp only [gtawLoop, specBindings, List.foldl_cons]
    exact ih _

theorem specBindings_keys (text : Str) (l : List (Str × Nat × Nat)) :
    (specBindings text l).map (fun p => p.1) = l.map (fun p => p.1) := by
  induction l with
  | nil => rfl
  | cons p rest ih =>
    obtain ⟨key, s, e⟩ := p
    simp only [specBindings, List.map_cons, ih]

/-- C6 amended: when the found labels have pairwise-distinct keys after
stripping trailing colons, the mapping binds each found label (in start
order) to the substring of the line from the end of its match to the start
of the next label's match (end of line for the last), trimmed, with empty
results recorded as None; and only keys of found labels appear.  (The
original claim fails when two labels collide on the same stripped key: the
later binding overwrites the earlier one.) -/
theorem C6_positional_values (text : Str) (labels : List Str)
    (hnd : ((gtawPositions text labels).map (fun p => p.1)).Nodup) :
    (∀ kv ∈ specBindings text (gtawSorted text labels),
       dictGet (get_text_after_words text labels) kv.1 = some kv.2) ∧
    (∀ k, dictGet (get_text_after_words text labels) k ≠ none →
       k ∈ (gtawPositions text labels).map (fun p => p.1)) := by
  have hperm : (gtawSorted text labels).Perm (gtawPositions text labels) :=
    stableSort_perm _ _
  have hpermkeys : ((gtawSorted text labels).map (fun p => p.1)).Perm
      ((gtawPositions text labels).map (fun p => p.1)) := hperm.map _
  have hnd' : ((gtawSorted text labels).map (fun p => p.1)).Nodup :=
    hpermkeys.nodup_iff.mpr hnd
  have hndb : ((specBindings text (gtawSorted text labels)).map (fun p => p.1)).Nodup := by
    rw [specBindings_keys]; exact hnd'
  constructor
  · intro kv hkv
    unfold get_text_after_words
    rw [gtawLoop_eq_foldl]
    exact dictGet_foldl_mem _ _ hndb kv hkv
  · intro k hk
    unfold get_text_after_words at hk
    rw [gtawLoop_eq_foldl] at hk
    rcases dictGet_foldl_none _ _ _ hk with h | h
    · exact absurd h (by simp [dictGet])
    · rw [specBindings_keys] at h
      exact hpermkeys.mem_iff.mp h

/-- C6 witness: on the compound line, the label "Conselho:" is bound to
"CRM-999", as the positional formula prescribes. -/
theorem C6_witness :
    dictGet (get_text_after_words "Conselho: CRM-999 CNS: 999999999999999".toList
      ["CNS:".toList, "Conselho:".toList]) "Conselho".toList =
    some (some "CRM-999".toList) :=
  (C6_positional_values "Conselho: CRM-999 CNS: 999999999999999".toList
    ["CNS:".toList, "Conselho:".toList] (by decide)).1
    ("Conselho".toList, some "CRM-999".toList) (by decide)

theorem wordLEyx_total (a b : Word) : wordLEyx a b = true ∨ wordLEyx b a = true := by
  simp only [wordLEyx, decide_eq_true_eq]
  rcases lt_trichotomy a.y0 b.y0 with h | h | h
  · left; left; exact h
  · rcases le_total a.x0 b.x0 with hx | hx
    · left; right; exact ⟨h, hx⟩
    · right; right; exact ⟨h.symm, hx⟩
  · right; left; exact h

theorem wordLEyx_trans (a b c : Word) (h1 : wordLEyx a b = true)
    (h2 : wordLEyx b c = true) : wordLEyx a c = true := by
  simp only [wordLEyx, decide_eq_true_eq] at *
  rcases h1 with h1 | ⟨h1e, h1x⟩ <;> rcases h2 with h2 | ⟨h2e, h2x⟩
  · left; exact h1.trans h2
  · left; rw [← h2e]; exact h1
  · left; rw [h1e]; exact h2
  · right; exact ⟨h1e.trans h2e, h1x.trans h2x⟩

theorem wordLEyx_y0 {a b : Word} (h : wordLEyx a b = true) : a.y0 ≤ b.y0 := by
  simp only [wordLEyx, decide_eq_true_eq] at h
  rcases h with h | ⟨he, _⟩
  · exact le_of_lt h
  · exact le_of_eq he

theorem linesLoop_eq_clusterLoop (tol : ℚ) : ∀ (ws : List Word)
    (cur : List Word) (cy : ℚ) (lines : List (Str × ℚ × ℚ)), cur ≠ [] →
    linesLoop tol lines cur (some cy) ws =
      lines ++ (clusterLoop tol cur cy ws).map renderLine := by
  intro ws
  induction ws with
  | nil =>
    intro cur cy lines hcur
    simp [linesLoop, clusterLoop, List.isEmpty_iff, hcur]
  | cons w ws ih =>
    intro cur cy lines hcur
    simp only [linesLoop, clusterLoop]
    split
    · rw [ih (cur ++ [w]) cy lines (by simp)]
    · rw [ih [w] w.y0 (lines ++ [renderLine cur]) (by simp)]
      simp

theorem extract_lines_eq (words : List Word) (tol : ℚ) (h : words ≠ []) :
    extract_lines_from_page words tol =
      Except.ok ((clustersOf tol (sortWordsYX words)).map renderLine) := by
  unfold extract_lines_from_page
  rw [if_neg (by simpa [List.isEmpty_iff] using h)]
  have hperm := stableSort_perm wordLEyx words
  have hs : sortWordsYX words ≠ [] := by
    intro he
    rw [sortWordsYX] at he
    have := hperm.length_eq
    rw [he] at this
    simp at this
    exact h (List.length_eq_zero.mp this.symm)
  obtain ⟨w, ws, hws⟩ := List.exists_cons_of_ne_nil hs
  rw [hws]
  simp only [linesLoop, clustersOf]
  rw [linesLoop_eq_clusterLoop tol ws [w] w.y0 [] (by simp)]
  simp

theorem clusterLoop_flatten (tol : ℚ) : ∀ (ws cur : List Word) (cy : ℚ),
    (clusterLoop tol cur cy ws).flatten = cur ++ ws := by
  intro ws
  induction ws with
  | nil => intro cur cy; simp [clusterLoop]
  | cons w ws ih =>
    intro cur cy
    simp only [clusterLoop]
    split
    · rw [ih]; simp
    · simp only [List.flatten_cons, ih]
      simp

theorem clustersOf_flatten (tol : ℚ) (ws : List Word) :
    (clustersOf tol ws).flatten = ws := by
  cases ws with
  | nil => rfl
  | cons w ws => simp [clustersOf, clusterLoop_flatten]

theorem clusterLoop_mem_props (tol : ℚ) : ∀ (ws cur : List Word) (cy : ℚ),
    cur ≠ [] → (cur ++ ws).Pairwise (fun a b => wordLEyx a b = true) →
    ∀ c ∈ clusterLoop tol cur cy ws,
      c ≠ [] ∧ c.Pairwise (fun a b => wordLEyx a b = true) := by
  intro ws
  induction ws with
  | nil =>
    intro cur cy hcur hp c hc
    simp only [clusterLoop, List.mem_singleton] at hc
    subst hc
    exact ⟨hcur, by simpa using hp⟩
  | cons w ws ih =>
    intro cur cy hcur hp c hc
    simp only [clusterLoop] at hc
    split at hc
    · refine ih (cur ++ [w]) cy (by simp) ?_ c hc
      rw [List.append_assoc]
      simpa using hp
    · rcases List.mem_cons.mp hc with rfl | hc'
      · exact ⟨hcur, (List.pairwise_append.mp hp).1⟩
      · refine ih [w] w.y0 (by simp) ?_ c hc'
        simpa using (List.pairwise_append.mp hp).2.1

theorem sortWordsYX_pairwise (words : List Word) :
    (sortWordsYX words).Pairwise (fun a b => wordLEyx a b = true) :=
  stableSort_pairwise wordLEyx_total wordLEyx_trans words

/-- C8 counterexample: with words A at (x0=10, y0=0) and B at (x0=5, y0=2)
and tolerance 3, both words form one cluster; the produced line "B A"
carries x0 = 10 (the first word in (y0, x0) order), not the leftmost
word's x0 = 5. -/
theorem C8_counterexample : ¬ claimC8 := by
  intro h
  have hcl : clustersOf 3 (sortWordsYX
      [⟨10, 0, 15, 5, "A".toList⟩, ⟨5, 2, 9, 7, "B".toList⟩]) =
      [[⟨10, 0, 15, 5, "A".toList⟩, ⟨5, 2, 9, 7, "B".toList⟩]] := by decide
  have := (h [⟨10, 0, 15, 5, "A".toList⟩, ⟨5, 2, 9, 7, "B".toList⟩] 3 (by decide)).2
    [⟨10, 0, 15, 5, "A".toList⟩, ⟨5, 2, 9, 7, "B".toList⟩] (by rw [hcl]; simp)
  have hb := this.2 ⟨5, 2, 9, 7, "B".toList⟩ (by simp)
  revert hb
  decide

/-- C8 amended: every produced Line is the rendering of a cluster whose
x0 and y0 are those of the cluster's first word in the (y0, x0)-sorted
order - a word of minimal y0 in its cluster, but not necessarily the
leftmost - and its text is the space-joined x0-ascending concatenation of
the cluster's words' texts. -/
theorem C8_line_coordinates (words : List Word) (tol : ℚ) (h : words ≠ []) :
    extract_lines_from_page words tol =
      Except.ok ((clustersOf tol (sortWordsYX words)).map renderLine) ∧
    ∀ c ∈ clustersOf tol (sortWordsYX words), ∃ w0 t, c = w0 :: t ∧
      renderLine c = (joinSpace ((sortWordsX c).map Word.text), w0.x0, w0.y0) ∧
      ∀ w ∈ c, w0.y0 ≤ w.y0 := by
  refine ⟨extract_lines_eq words tol h, ?_⟩
  intro c hc
  cases hw : sortWordsYX words with
  | nil =>
    exfalso
    have hperm := stableSort_perm wordLEyx words
    rw [sortWordsYX] at hw
    rw [hw] at hperm
    exact h (hperm.symm.eq_nil)
  | cons w ws =>
    have hmem : c ∈ clusterLoop tol [w] w.y0 ws := by
      rw [hw] at hc
      simpa [clustersOf] using hc
    have hpw : ([w] ++ ws).Pairwise (fun a b => wordLEyx a b = true) := by
      have := sortWordsYX_pairwise words
      rw [hw] at this
      simpa using this
    obtain ⟨hne, hp⟩ := clusterLoop_mem_props tol ws [w] w.y0 (by simp) hpw c hmem
    obtain ⟨w0, t, rfl⟩ := List.exists_cons_of_ne_nil hne
    refine ⟨w0, t, rfl, rfl, ?_⟩
    intro x hx
    rcases List.mem_cons.mp hx with rfl | hx'
    · exact le_refl _
    · exact wordLEyx_y0 ((List.pairwise_cons.mp hp).1 x hx')

/-- C8 witness: a concrete one-word page. -/
theorem C8_witness :
    ∃ w0 t, [(⟨10, 0, 15, 5, "A".toList⟩ : Word)] = w0 :: t ∧
      renderLine [(⟨10, 0, 15, 5, "A".toList⟩ : Word)] =
        (joinSpace ((sortWordsX [(⟨10, 0, 15, 5, "A".toList⟩ : Word)]).map
          Word.text), w0.x0, w0.y0) ∧
      ∀ w ∈ [(⟨10, 0, 15, 5, "A".toList⟩ : Word)], w0.y0 ≤ w.y0 :=
  (C8_line_coordinates [⟨10, 0, 15, 5, "A".toList⟩] 3 (by decide)).2
    [⟨10, 0, 15, 5, "A".toList⟩] (by decide)

/-- C9: the LineReconstructor conserves words: the clusters underlying
the produced lines are non-empty and their concatenation is a permutation
of the input words, so every word appears in exactly one reconstructed
Line's concatenation - none dropped, none duplicated. -/
theorem C9_word_conservation (words : List Word) (tol : ℚ) (h : words ≠ []) :
    ∃ cs : List (List Word),
      extract_lines_from_page words tol = Except.ok (cs.map renderLine) ∧
      cs.flatten.Perm words ∧ ∀ c ∈ cs, c ≠ [] := by
  refine ⟨clustersOf tol (sortWordsYX words), extract_lines_eq words tol h, ?_, ?_⟩
  · rw [clustersOf_flatten]
    exact stableSort_perm wordLEyx words
  · intro c hc
    cases hw : sortWordsYX words with
    | nil =>
      exfalso
      have hperm := stableSort_perm wordLEyx words
      rw [sortWordsYX] at hw
      rw [hw] at hperm
      exact h (hperm.symm.eq_nil)
    | cons w ws =>
      have hmem : c ∈ clusterLoop tol [w] w.y0 ws := by
        rw [hw] at hc
        simpa [clustersOf] using hc
      have hpw : ([w] ++ ws).Pairwise (fun a b => wordLEyx a b = true) := by
        have := sortWordsYX_pairwise words
        rw [hw] at this
        simpa using this
      exact (clusterLoop_mem_props tol ws [w] w.y0 (by simp) hpw c hmem).1


/-- C9 witness: a concrete two-word page. -/
theorem C9_witness :
    ∃ cs : List (List Word),
      extract_lines_from_page
        [⟨10, 0, 15, 5, "A".toList⟩, ⟨5, 2, 9, 7, "B".toList⟩] 3 =
        Except.ok (cs.map renderLine) ∧
      cs.flatten.Perm [⟨10, 0, 15, 5, "A".toList⟩, ⟨5, 2, 9, 7, "B".toList⟩] ∧
      ∀ c ∈ cs, c ≠ [] :=
  C9_word_conservation [⟨10, 0, 15, 5, "A".toList⟩, ⟨5, 2, 9, 7, "B".toList⟩] 3
    (by decide)

/-- C2 counterexample: a run over [bad, good], where bad is a valid PDF
whose only page has no words and good processes successfully on its own,
aborts with EmptyDocumentError instead of continuing with good: process
has no handler around _process_report. -/
theorem C2_counterexample : ¬ claimC2 := by
  intro h
  have := h ⟨[("SEC".toList, ⟨[], [], none⟩)], [], []⟩
    ⟨"bad".toList, true, [[]]⟩
    [⟨"good".toList, true, [[⟨10, 0, 15, 5, "SEC".toList⟩, ⟨10, 20, 15, 25, "X".toList⟩]]⟩]
    (by decide) (by decide) (by decide)
  revert this
  decide

theorem foldlM_ok_of_mem {ε α β : Type} (f : β → α → Except ε β) :
    ∀ (l : List α) (init out : β), l.foldlM f init = Except.ok out →
    ∀ a ∈ l, ∃ acc acc', f acc a = Except.ok acc' := by
  intro l
  induction l with
  | nil =>
    intro init out h a ha
    exact absurd ha (by simp)
  | cons b l ih =>
    intro init out h a ha
    rw [List.foldlM_cons] at h
    cases hf : f init b with
    | error e =>
      rw [hf] at h
      exact Except.noConfusion h
    | ok acc0 =>
      rw [hf] at h
      rcases List.mem_cons.mp ha with rfl | ha'
      · exact ⟨init, acc0, hf⟩
      · exact ih acc0 out h a ha'

theorem process_ok_report {cfg : ExtractorConfig} {selected : Option (List Nat)}
    {docs : List PyDocument} {out}
    (h : process cfg selected docs = Except.ok out) :
    ∀ d ∈ docs, d.is_pdf = true →
      ∃ pr, process_report cfg d.pages selected = Except.ok pr := by
  intro d hd hpdf
  unfold process at h
  obtain ⟨acc, acc', hstep⟩ := foldlM_ok_of_mem _ docs _ out h d hd
  rw [hpdf] at hstep
  simp only [Bool.not_true, Bool.false_eq_true, if_false] at hstep
  cases hpr : process_report cfg d.pages selected with
  | error e =>
    rw [hpr] at hstep
    exact Except.noConfusion hstep
  | ok pr => exact ⟨pr, rfl⟩

theorem report_ok_pages {cfg : ExtractorConfig} {pages : List (List Word)}
    {selected : Option (List Nat)} {pr}
    (h : process_report cfg pages selected = Except.ok pr) :
    ∀ i ∈ pageIndices selected pages.length, ∀ page,
      pages.get? i = some page → page ≠ [] := by
  intro i hi page hpage hempty
  subst hempty
  unfold process_report at h
  cases hrun : reportRun cfg pages selected with
  | error e =>
    rw [hrun] at h
    exact Except.noConfusion h
  | ok acc =>
    unfold reportRun at hrun
    obtain ⟨a, a', hstep⟩ := foldlM_ok_of_mem _ _ _ acc hrun i hi
    rw [hpage] at hstep
    exact Except.noConfusion hstep

/-- C2 amended: a page with zero extractable words raises
EmptyDocumentError, and the exception propagates uncaught through
_process_report and process, aborting the whole multi-document run;
equivalently, a run that returns normally processed only pages with at
least one word (in every valid-PDF document, at every processed page
index). -/
theorem C2_empty_page_aborts :
    (∀ tol : ℚ, extract_lines_from_page [] tol =
      Except.error PyExn.emptyDocumentError) ∧
    (∀ (cfg : ExtractorConfig) (selected : Option (List Nat))
       (docs : List PyDocument) out, process cfg selected docs = Except.ok out →
       ∀ d ∈ docs, d.is_pdf = true →
         ∀ i ∈ pageIndices selected d.pages.length, ∀ page,
           d.pages.get? i = some page → page ≠ []) := by
  constructor
  · intro tol; rfl
  · intro cfg selected docs out h d hd hpdf i hi page hpage
    obtain ⟨pr, hpr⟩ := process_ok_report h d hd hpdf
    exact report_ok_pages hpr i hi page hpage

/-- C2 witness: the EmptyDocument error on an empty page, and a concrete
successful run whose pages are certified non-empty by the theorem. -/
theorem C2_witness :
    extract_lines_from_page [] 3 = Except.error PyExn.emptyDocumentError ∧
    ([⟨0, 0, 5, 5, "A".toList⟩] : List Word) ≠ [] :=
  ⟨C2_empty_page_aborts.1 3,
   C2_empty_page_aborts.2 ⟨[], [], []⟩ none [⟨"d".toList, true, [[⟨0, 0, 5, 5, "A".toList⟩]]⟩]
     ([], []) (by rfl) ⟨"d".toList, true, [[⟨0, 0, 5, 5, "A".toList⟩]]⟩
     (by simp) (by rfl) 0 (by decide) [⟨0, 0, 5, 5, "A".toList⟩] (by rfl)⟩

/-- C4 counterexample: (i) on a section-title line the parser leaves the
current subsection unchanged (here it stays "S" instead of being
cleared); (ii) when the title is also an ignored line, the ignore branch
wins and currentSection is not even set (it stays "A"). -/
theorem C4_counterexample : ¬ claimC4 ∧
    (processLine c4cfgIgnore c4st ("B".toList, 0, 0)).map PageState.section_name =
      Except.ok (some "A".toList) := by
  constructor
  · intro h
    have hrun : processLine c4cfg c4st ("B".toList, 0, 0) = Except.ok
        { c4st with extracted_lines := ["B".toList],
                    section_name := some "B".toList,
                    section_name_key := "b__".toList,
                    previous_y0 := 0,
                    reading_multiple_lines_content := false } := by rfl
    have := (h c4cfg c4st "B".toList 0 0 _ (by decide) hrun).2.2.1
    revert this
    decide
  · rfl

/-- C4 amended: whenever a parsed line (trimmed) equals a declared
section title and is not an ignored line, the parser sets currentSection,
resets the key to normalize(section) ++ "__", marks the line extracted
and clears the multi-line continuation flag - while leaving the current
subsection, the extract_key_value flag, the working label set and the
accumulated data unchanged. -/
theorem C4_section_reset (cfg : ExtractorConfig) (st : PageState) (line : Str) (x0 y0 : ℚ)
    (h1 : pyStrip line ∉ cfg.ignore_lines)
    (h2 : pyStrip line ∈ cfg.sections_all.map Prod.fst) :
    processLine cfg st (line, x0, y0) = Except.ok
      { st with extracted_lines := setAdd st.extracted_lines line,
                section_name := some (pyStrip line),
                section_name_key := normalize (pyStrip line) ++ "__".toList,
                previous_y0 := y0,
                reading_multiple_lines_content := false } := by
  unfold processLine
  rw [if_neg h1, if_pos h2]
  rfl

/-- C4 witness: the reset equation at a concrete configuration and
mid-parse state. -/
theorem C4_witness :
    processLine c4cfg c4st ("B".toList, 0, 0) = Except.ok
      { c4st with extracted_lines := setAdd c4st.extracted_lines "B".toList,
                  section_name := some (pyStrip "B".toList),
                  section_name_key := normalize (pyStrip "B".toList) ++ "__".toList,
                  previous_y0 := 0,
                  reading_multiple_lines_content := false } :=
  C4_section_reset c4cfg c4st "B".toList 0 0 (by decide) (by decide)

theorem mem_setAdd {s : List Str} {x t : Str} (h : t ∈ s) : t ∈ setAdd s x := by
  unfold setAdd
  split
  · exact h
  · exact List.mem_append_left _ h

theorem mem_setAdd_iff {s : List Str} {x t : Str} :
    t ∈ setAdd s x ↔ t ∈ s ∨ t = x := by
  unfold setAdd
  split
  · rename_i hx
    constructor
    · exact Or.inl
    · rintro (h | rfl)
      · exact h
      · exact hx
  · simp

theorem mem_pySetOf {xs : List Str} {t : Str} : t ∈ pySetOf xs ↔ t ∈ xs := by
  unfold pySetOf
  suffices h : ∀ (xs acc : List Str), t ∈ xs.foldl setAdd acc ↔ t ∈ acc ∨ t ∈ xs by
    simpa using h xs []
  intro xs
  induction xs with
  | nil => simp
  | cons x xs ih =>
    intro acc
    simp only [List.foldl_cons, ih, mem_setAdd_iff, List.mem_cons]
    tauto

theorem foldlM_preserve {ε α β : Type} (f : β → α → Except ε β) (P : β → Prop)
    (hf : ∀ b a b', f b a = Except.ok b' → P b → P b') :
    ∀ (l : List α) (b b' : β), l.foldlM f b = Except.ok b' → P b → P b' := by
  intro l
  induction l with
  | nil =>
    intro b b' h hb
    cases h
    exact hb
  | cons a l ih =>
    intro b b' h hb
    rw [List.foldlM_cons] at h
    cases hf0 : f b a with
    | error e => rw [hf0] at h; exact Except.noConfusion h
    | ok b0 =>
      rw [hf0] at h
      exact ih b0 b' h (hf b a b0 hf0 hb)

theorem elfItemStep_extracted {sn : Option Str} {key : Str} {st st' : ElfOut}
    {fv : Str × Option Str} (h : elfItemStep sn key st fv = Except.ok st') :
    st'.extracted_lines = st.extracted_lines := by
  unfold elfItemStep at h
  rcases hfv2 : fv.2 with _ | v <;> rw [hfv2] at h <;> try simp only [] at h
  case none =>
    rcases hdg : dictGet st.fields_dict sn with _ | lst <;> rw [hdg] at h <;>
      try simp only [] at h
    · exact Except.noConfusion h
    · rcases hr1 : removeFirst lst (fv.1 ++ [':']) with _ | lst' <;> rw [hr1] at h <;>
        try simp only [] at h
      · rcases hr2 : removeFirst lst fv.1 with _ | lst' <;> rw [hr2] at h <;>
          try simp only [] at h
        · exact Except.noConfusion h
        · cases h; rfl
      · cases h; rfl
  case some =>
    cases hvb : (!List.isEmpty v && decide (':' ∈ v)) <;> rw [hvb] at h <;>
      try simp only [] at h
    · rcases hdg : dictGet st.fields_dict sn with _ | lst <;> rw [hdg] at h <;>
        try simp only [] at h
      · exact Except.noConfusion h
      · rcases hr1 : removeFirst lst (fv.1 ++ [':']) with _ | lst' <;> rw [hr1] at h <;>
          try simp only [] at h
        · rcases hr2 : removeFirst lst fv.1 with _ | lst' <;> rw [hr2] at h <;>
            try simp only [] at h
          · exact Except.noConfusion h
          · cases h; rfl
        · cases h; rfl
    · rcases hek : extract_key_value_pairs st.clean_line with _ | ⟨kv, tl⟩ <;>
        rw [hek] at h <;> try simp only [] at h
      · exact Except.noConfusion h
      · rcases hdg : dictGet st.fields_dict sn with _ | lst <;> rw [hdg] at h <;>
          try simp only [] at h
        · exact Except.noConfusion h
        · rcases hr1 : removeFirst lst (fv.1 ++ [':']) with _ | lst' <;> rw [hr1] at h <;>
            try simp only [] at h
          · rcases hr2 : removeFirst lst fv.1 with _ | lst' <;> rw [hr2] at h <;>
              try simp only [] at h
            · exact Except.noConfusion h
            · cases h; rfl
          · cases h; rfl

theorem sectionTail_extracted (line : Str) (y0 : ℚ) (st : PageState)
    (is_subsection : Bool) (clean_line : Str) :
    (sectionTail line y0 st is_subsection clean_line).extracted_lines =
      setAdd st.extracted_lines line := by
  unfold sectionTail
  simp only []
  repeat' split
  all_goals rfl

theorem extract_labeled_field_extracted {fd : List (Option Str × List Str)}
    {sn : Option Str} {key clean : Str} {ex : List Str}
    {data : List (Str × Option Str)} {out : ElfOut}
    (h : extract_labeled_field fd sn key clean ex data = Except.ok out) :
    ∀ t ∈ ex, t ∈ out.extracted_lines := by
  intro t ht
  unfold extract_labeled_field at h
  split at h
  · simp only [] at h
    split at h
    · cases h; exact ht
    · have hpres := foldlM_preserve (elfItemStep sn key)
        (fun b => b.extracted_lines = setAdd ex clean)
        (fun b a b' hf hb => by
          show b'.extracted_lines = setAdd ex clean
          rw [elfItemStep_extracted hf]
          exact hb)
        _ _ _ h rfl
      rw [hpres]
      exact mem_setAdd ht
  · cases h; exact ht

theorem sectionBlock_extracted {cfg : ExtractorConfig} {line : Str} {x0 y0 : ℚ}
    {st : PageState} {sname : Str} {clean : Str} {st' : PageState}
    (h : sectionBlock cfg line x0 y0 st sname clean = Except.ok st') :
    ∀ t ∈ st.extracted_lines, t ∈ st'.extracted_lines := by
  intro t ht
  unfold sectionBlock at h
  rcases hdg : dictGet cfg.sections_all sname with _ | spec <;> rw [hdg] at h <;>
    try simp only [] at h
  · exact Except.noConfusion h
  · repeat' split at h
    all_goals try exact Except.noConfusion h
    all_goals cases h
    all_goals first
      | exact mem_setAdd ht
      | (rw [sectionTail_extracted]; exact mem_setAdd ht)

theorem exc_ok_bind {ε α β : Type} (a : α) (f : α → Except ε β) :
    (Except.ok a : Except ε α) >>= f = f a := rfl

theorem exc_error_bind {ε α β : Type} (e : ε) (f : α → Except ε β) :
    (Except.error e : Except ε α) >>= f = Except.error e := rfl

theorem exc_pure_bind {ε α β : Type} (a : α) (f : α → Except ε β) :
    (pure a : Except ε α) >>= f = f a := rfl

theorem plTail_extracted {cfg : ExtractorConfig} {line : Str} {x0 y0 : ℚ}
    {st : PageState} {clean : Str} {st' : PageState}
    (h : plTail cfg line x0 y0 st clean = Except.ok st') :
    ∀ t ∈ st.extracted_lines, t ∈ st'.extracted_lines := by
  intro t ht
  unfold plTail at h
  by_cases hft : fieldsTruthy st.fields_dict st.section_name = true
  · rw [if_pos hft] at h
    rcases helf : extract_labeled_field st.fields_dict st.section_name
        st.section_name_key clean st.extracted_lines st.data with e | out <;>
      rw [helf] at h <;> try simp only [exc_ok_bind, exc_error_bind, exc_pure_bind] at h
    · exact Except.noConfusion h
    · have ht1 : t ∈ (applyElf st out).extracted_lines :=
        extract_labeled_field_extracted helf t ht
      by_cases hopt : optStrTruthy (applyElf st out).section_name = true
      · rw [if_pos hopt] at h
        exact sectionBlock_extracted h t ht1
      · rw [if_neg hopt] at h
        cases h
        exact ht1
  · rw [if_neg hft] at h
    simp only [exc_pure_bind] at h
    by_cases hopt : optStrTruthy st.section_name = true
    · rw [if_pos hopt] at h
      exact sectionBlock_extracted h t ht
    · rw [if_neg hopt] at h
      cases h
      exact ht

theorem processLine_extracted {cfg : ExtractorConfig} {st st' : PageState}
    {lxy : Str × ℚ × ℚ} (h : processLine cfg st lxy = Except.ok st') :
    ∀ t ∈ st.extracted_lines, t ∈ st'.extracted_lines := by
  intro t ht
  unfold processLine at h
  simp only [] at h
  by_cases hig : pyStrip lxy.1 ∈ cfg.ignore_lines
  · rw [if_pos hig] at h
    cases h
    exact mem_setAdd ht
  · rw [if_neg hig] at h
    by_cases hsec : pyStrip lxy.1 ∈ List.map Prod.fst cfg.sections_all
    · rw [if_pos hsec] at h
      cases h
      exact mem_setAdd ht
    · rw [if_neg hsec] at h
      by_cases hft : fieldsTruthy st.fields_dict none = true
      · rw [if_pos hft] at h
        rcases helf : extract_labeled_field st.fields_dict none "geral__".toList
            (pyStrip lxy.1) st.extracted_lines st.data with e | out <;>
          rw [helf] at h <;> try simp only [exc_ok_bind, exc_error_bind, exc_pure_bind] at h
        · exact Except.noConfusion h
        · have ht1 : t ∈ (applyElf st out).extracted_lines :=
            extract_labeled_field_extracted helf t ht
          by_cases hfc : out.clean_line.isEmpty = true
          · rw [if_pos hfc] at h
            cases h
            exact ht1
          · rw [if_neg hfc] at h
            exact plTail_extracted h t ht1
      · rw [if_neg hft] at h
        exact plTail_extracted h t ht

theorem pageLineLoop_extracted {cfg : ExtractorConfig}
    {lines : List (Str × ℚ × ℚ)} {ex : List Str} {st : PageState}
    (h : pageLineLoop cfg lines ex = Except.ok st) :
    ∀ t ∈ ex, t ∈ st.extracted_lines := by
  intro t ht
  unfold pageLineLoop at h
  cases lines with
  | nil => exact Except.noConfusion h
  | cons l0 rest =>
    exact foldlM_preserve (processLine cfg) (fun b => t ∈ b.extracted_lines)
      (fun b a b' hf hb => processLine_extracted hf t hb)
      _ _ _ h ht

theorem C1_counterexample : ¬ claimC1 := by
  intro h
  have hx := h c1cfg c1pages none
    ⟨["SEC".toList, "X".toList], [], [[("sec".toList, some "X".toList)], []], []⟩
    (by rfl) 1 (by decide)
    [⟨10, 0, 15, 5, "X".toList⟩] (by rfl)
    [("X".toList, 10, 0)] (by rfl)
    ⟨[], none, [], none, false, false, 0, [], [], []⟩ (by rfl)
    "X".toList (by simp) (by simp)
  rcases hx with ⟨pend, hmem, _⟩
  simp at hmem

/-- C1 (amended): the pending/consumed partition holds at the
document-cumulative level.  For a successfully processed page,
the accumulator's extracted set only grows, the page appends its pending
entry (the page texts missing from the end-of-page cumulative extracted
set) exactly when that entry is non-empty, and every page text is pending
iff it is not in the cumulative extracted set - so a text consumed on an
earlier page of the same document is treated as consumed here, not
pending, even when no step of this page consumed it. -/
theorem C1_pending_cumulative {cfg : ExtractorConfig} {acc acc' : ReportAcc}
    {pn : Nat} {page : List Word} {lines : List (Str × ℚ × ℚ)} {st : PageState}
    (hrp : reportPage cfg acc pn page = Except.ok acc')
    (hlines : extract_lines_from_page page 3 = Except.ok lines)
    (hloop : pageLineLoop cfg lines acc.extracted_lines = Except.ok st) :
    acc'.extracted_lines = st.extracted_lines ∧
    (∀ t ∈ acc.extracted_lines, t ∈ acc'.extracted_lines) ∧
    acc'.pages_pending_lines = acc.pages_pending_lines ++
      (if (pendingOf lines st.extracted_lines).isEmpty then []
       else [(pn, pendingOf lines st.extracted_lines)]) ∧
    (∀ t ∈ lines.map (fun l => l.1),
      (t ∈ pendingOf lines st.extracted_lines ↔ t ∉ st.extracted_lines)) := by
  have hne : lines.isEmpty = false := by
    cases lines with
    | nil => exact Except.noConfusion hloop
    | cons a l => rfl
  unfold reportPage at hrp
  rw [hlines] at hrp
  simp only [exc_ok_bind] at hrp
  rw [hne, if_neg Bool.false_ne_true, hloop] at hrp
  simp only [exc_ok_bind] at hrp
  cases hrp
  refine ⟨rfl, ?_, rfl, ?_⟩
  · intro t ht
    exact pageLineLoop_extracted hloop t ht
  · intro t ht
    simp [pendingOf, List.mem_filter, mem_pySetOf, ht]

theorem C1_witness :
    reportPage c1cfg ⟨[], [], [], []⟩ 1 c1wPage = Except.ok c1wAcc ∧
    c1wAcc.pages_pending_lines = ([] : List (Nat × List Str)) ++
      (if (pendingOf c1wLines c1wSt.extracted_lines).isEmpty then []
       else [(1, pendingOf c1wLines c1wSt.extracted_lines)]) ∧
    (∀ t ∈ c1wLines.map (fun l => l.1),
      (t ∈ pendingOf c1wLines c1wSt.extracted_lines ↔
        t ∉ c1wSt.extracted_lines)) :=
  ⟨by rfl,
   (@C1_pending_cumulative c1cfg ⟨[], [], [], []⟩ c1wAcc 1 c1wPage c1wLines c1wSt
      (by rfl) (by rfl) (by rfl)).2.2⟩

theorem C10_counterexample : ¬ claimC10 := by
  intro h
  rcases h c10cfg c10pages none (by decide) with ⟨pend, recs, heq, _⟩
  have herr : process_report c10cfg c10pages none =
      Except.error PyExn.typeError := by rfl
  rw [herr] at heq
  exact Except.noConfusion heq

theorem reportPage_data_length {cfg : ExtractorConfig} {acc acc' : ReportAcc}
    {pn : Nat} {page : List Word}
    (h : reportPage cfg acc pn page = Except.ok acc') :
    acc'.pages_data.length = acc.pages_data.length + 1 := by
  unfold reportPage at h
  rcases hl : extract_lines_from_page page 3 with e | lines <;> rw [hl] at h <;>
    simp only [exc_ok_bind, exc_error_bind] at h
  · exact Except.noConfusion h
  · by_cases hne : lines.isEmpty = true
    · rw [if_pos hne] at h
      exact Except.noConfusion h
    · rw [if_neg hne] at h
      rcases hlo : pageLineLoop cfg lines acc.extracted_lines with e | st <;>
        rw [hlo] at h <;> simp only [exc_ok_bind, exc_error_bind] at h
      · exact Except.noConfusion h
      · cases h
        simp

theorem reportRun_go_length (cfg : ExtractorConfig) (pages : List (List Word)) :
    ∀ (l : List Nat) (acc acc' : ReportAcc),
      l.foldlM (fun acc i =>
        match pages.get? i with
        | some page => reportPage cfg acc (i + 1) page
        | none => Except.error PyExn.indexError) acc = Except.ok acc' →
      acc'.pages_data.length = acc.pages_data.length + l.length := by
  intro l
  induction l with
  | nil =>
    intro acc acc' h
    cases h
    simp
  | cons i l ih =>
    intro acc acc' h
    rw [List.foldlM_cons] at h
    try simp only [] at h
    rcases hg : pages.get? i with _ | page <;> rw [hg] at h <;>
      try simp only [] at h
    · exact Except.noConfusion h
    · rcases hr : reportPage cfg acc (i + 1) page with e | acc1 <;> rw [hr] at h <;>
        simp only [exc_ok_bind, exc_error_bind] at h
      · exact Except.noConfusion h
      · have h1 := ih acc1 acc' h
        have h2 := reportPage_data_length hr
        simp only [List.length_cons]
        omega

/-- C10 (amended): a call of _process_report that RETURNS appends exactly
one record per processed page (so the DataFrame has one row per processed
page); but a document all of whose pages yield words can still abort with
an exception (c10pages raises TypeError), in which case no DataFrame is
produced at all. -/
theorem C10_record_count {cfg : ExtractorConfig} {pages : List (List Word)}
    {selected : Option (List Nat)} {acc : ReportAcc}
    (h : reportRun cfg pages selected = Except.ok acc) :
    acc.pages_data.length = (pageIndices selected pages.length).length := by
  unfold reportRun at h
  have hg := reportRun_go_length cfg pages (pageIndices selected pages.length)
    ⟨[], [], [], []⟩ acc h
  simpa using hg

theorem C10_witness :
    reportRun c1cfg c10wPages none = Except.ok c10wAcc ∧
    c10wAcc.pages_data.length = (pageIndices none c10wPages.length).length :=
  ⟨by rfl, @C10_record_count c1cfg c10wPages none c10wAcc (by rfl)⟩

theorem dropWhile_dropWhile {α : Type} (p : α → Bool) (l : List α) :
    (l.dropWhile p).dropWhile p = l.dropWhile p := by
  induction l with
  | nil => rfl
  | cons a l ih =>
    by_cases hp : p a = true
    · simp [List.dropWhile_cons, hp, ih]
    · simp [List.dropWhile_cons, hp]

theorem rstripChar_idem (c : Char) (s : Str) :
    rstripChar c (rstripChar c s) = rstripChar c s := by
  unfold rstripChar
  rw [List.reverse_reverse, dropWhile_dropWhile]

theorem rstripChar_append_same (c : Char) (s : Str) :
    rstripChar c (s ++ [c]) = rstripChar c s := by
  unfold rstripChar
  rw [List.reverse_append]
  simp [List.dropWhile_cons]

theorem dictGet_mem {κ ν : Type} [DecidableEq κ] {d : List (κ × ν)} {k : κ}
    {v : ν} (h : dictGet d k = some v) : (k, v) ∈ d := by
  induction d with
  | nil => exact Option.noConfusion h
  | cons kv d ih =>
    unfold dictGet at h
    by_cases he : kv.1 = k
    · rw [if_pos he] at h
      cases h
      rw [← he]
      exact List.mem_cons_self kv d
    · rw [if_neg he] at h
      exact List.mem_cons_of_mem kv (ih h)

theorem mem_dictSet {κ ν : Type} [DecidableEq κ] {d : List (κ × ν)} {k : κ}
    {v : ν} {kv : κ × ν} (h : kv ∈ dictSet d k v) : kv ∈ d ∨ kv = (k, v) := by
  induction d with
  | nil =>
    unfold dictSet at h
    rcases List.mem_singleton.mp h with h
    exact Or.inr h
  | cons kv' d ih =>
    unfold dictSet at h
    by_cases he : kv'.1 = k
    · rw [if_pos he] at h
      rcases List.mem_cons.mp h with h | h
      · exact Or.inr (by rw [h, he])
      · exact Or.inl (List.mem_cons_of_mem _ h)
    · rw [if_neg he] at h
      rcases List.mem_cons.mp h with h | h
      · subst h
        exact Or.inl (List.mem_cons_self _ _)
      · rcases ih h with h | h
        · exact Or.inl (List.mem_cons_of_mem _ h)
        · exact Or.inr h

theorem removeFirst_eq_some {α : Type} [DecidableEq α] :
    ∀ {l : List α} {a : α} {l' : List α}, removeFirst l a = some l' →
      ∃ s t, l = s ++ a :: t ∧ a ∉ s ∧ l' = s ++ t := by
  intro l
  induction l with
  | nil => intro a l' h; exact Option.noConfusion h
  | cons b l ih =>
    intro a l' h
    unfold removeFirst at h
    by_cases he : b = a
    · rw [if_pos he] at h
      cases h
      exact ⟨[], l, by subst he; rfl, List.not_mem_nil a, rfl⟩
    · rw [if_neg he] at h
      rcases ho : removeFirst l a with _ | l₀ <;> rw [ho] at h
      · exact Option.noConfusion h
      · cases h
        obtain ⟨s, t, hl, hna, hl'⟩ := ih ho
        refine ⟨b :: s, t, by rw [hl]; rfl, ?_, by rw [hl']; rfl⟩
        intro hmem
        rcases List.mem_cons.mp hmem with hmem | hmem
        · exact he hmem.symm
        · exact hna hmem

theorem gtawPositions_key (text : Str) (labels : List Str) :
    ∀ p ∈ gtawPositions text labels, rstripChar ':' p.1 = p.1 := by
  intro p hp
  unfold gtawPositions at hp
  obtain ⟨label, _, hmap⟩ := List.mem_filterMap.mp hp
  rcases ho : findSub label text with _ | s <;> rw [ho] at hmap
  · exact Option.noConfusion hmap
  · cases hmap
    exact rstripChar_idem ':' label

theorem mem_gtawLoop (text : Str) :
    ∀ (ps : List (Str × Nat × Nat)) (res : List (Str × Option Str))
      (kv : Str × Option Str), kv ∈ gtawLoop text ps res →
      kv ∈ res ∨ ∃ p ∈ ps, kv.1 = p.1 := by
  intro ps
  induction ps with
  | nil =>
    intro res kv h
    exact Or.inl h
  | cons p ps ih =>
    intro res kv h
    unfold gtawLoop at h
    rcases ih _ kv h with h | ⟨q, hq, hkq⟩
    · rcases mem_dictSet h with h | h
      · exact Or.inl h
      · exact Or.inr ⟨p, List.mem_cons_self p ps, by rw [h]⟩
    · exact Or.inr ⟨q, List.mem_cons_of_mem p hq, hkq⟩

theorem gtaw_keys_stripped (text : Str) (labels : List Str) :
    ∀ kv ∈ get_text_after_words text labels, rstripChar ':' kv.1 = kv.1 := by
  intro kv h
  unfold get_text_after_words at h
  rcases mem_gtawLoop text _ _ kv h with h | ⟨p, hp, hk⟩
  · exact absurd h (List.not_mem_nil kv)
  · have hmem : p ∈ gtawPositions text labels := by
      unfold gtawSorted at hp
      exact (stableSort_perm _ _).mem_iff.mp hp
    rw [hk]
    exact gtawPositions_key text labels p hmem

theorem foldlM_preserve_mem {ε α β : Type} (f : β → α → Except ε β)
    (Q : α → Prop) (P : β → Prop)
    (hf : ∀ b a, Q a → ∀ b', f b a = Except.ok b' → P b → P b') :
    ∀ (l : List α), (∀ a ∈ l, Q a) → ∀ (b b' : β),
      l.foldlM f b = Except.ok b' → P b → P b' := by
  intro l
  induction l with
  | nil =>
    intro _ b b' h hb
    cases h
    exact hb
  | cons a l ih =>
    intro hQ b b' h hb
    rw [List.foldlM_cons] at h
    cases hf0 : f b a with
    | error e => rw [hf0] at h; exact Except.noConfusion h
    | ok b0 =>
      rw [hf0] at h
      exact ih (fun x hx => hQ x (List.mem_cons_of_mem a hx)) b0 b' h
        (hf b a (hQ a (List.mem_cons_self a l)) b0 hf0 hb)

theorem elfItemStep_shape {sn : Option Str} {key : Str} {st st' : ElfOut}
    {fv : Str × Option Str} (h : elfItemStep sn key st fv = Except.ok st') :
    ∃ lst x lst', dictGet st.fields_dict sn = some lst ∧
      removeFirst lst x = some lst' ∧ (x = fv.1 ++ [':'] ∨ x = fv.1) ∧
      st'.fields_dict = dictSet st.fields_dict sn lst' ∧
      st'.match_log = st.match_log ++ [(sn, fv.1)] := by
  unfold elfItemStep at h
  rcases hfv2 : fv.2 with _ | v <;> rw [hfv2] at h <;> try simp only [] at h
  case none =>
    rcases hdg : dictGet st.fields_dict sn with _ | lst <;> rw [hdg] at h <;>
      try simp only [] at h
    · exact Except.noConfusion h
    · rcases hr1 : removeFirst lst (fv.1 ++ [':']) with _ | lst' <;> rw [hr1] at h <;>
        try simp only [] at h
      · rcases hr2 : removeFirst lst fv.1 with _ | lst' <;> rw [hr2] at h <;>
          try simp only [] at h
        · exact Except.noConfusion h
        · cases h
          exact ⟨lst, fv.1, lst', rfl, hr2, Or.inr rfl, rfl, rfl⟩
      · cases h
        exact ⟨lst, fv.1 ++ [':'], lst', rfl, hr1, Or.inl rfl, rfl, rfl⟩
  case some =>
    cases hvb : (!List.isEmpty v && decide (':' ∈ v)) <;> rw [hvb] at h <;>
      try simp only [] at h
    · rcases hdg : dictGet st.fields_dict sn with _ | lst <;> rw [hdg] at h <;>
        try simp only [] at h
      · exact Except.noConfusion h
      · rcases hr1 : removeFirst lst (fv.1 ++ [':']) with _ | lst' <;> rw [hr1] at h <;>
          try simp only [] at h
        · rcases hr2 : removeFirst lst fv.1 with _ | lst' <;> rw [hr2] at h <;>
            try simp only [] at h
          · exact Except.noConfusion h
          · cases h
            exact ⟨lst, fv.1, lst', rfl, hr2, Or.inr rfl, rfl, rfl⟩
        · cases h
          exact ⟨lst, fv.1 ++ [':'], lst', rfl, hr1, Or.inl rfl, rfl, rfl⟩
    · rcases hek : extract_key_value_pairs st.clean_line with _ | ⟨kv, tl⟩ <;>
        rw [hek] at h <;> try simp only [] at h
      · exact Except.noConfusion h
      · rcases hdg : dictGet st.fields_dict sn with _ | lst <;> rw [hdg] at h <;>
          try simp only [] at h
        · exact Except.noConfusion h
        · rcases hr1 : removeFirst lst (fv.1 ++ [':']) with _ | lst' <;> rw [hr1] at h <;>
            try simp only [] at h
          · rcases hr2 : removeFirst lst fv.1 with _ | lst' <;> rw [hr2] at h <;>
              try simp only [] at h
            · exact Except.noConfusion h
            · cases h
              exact ⟨lst, fv.1, lst', rfl, hr2, Or.inr rfl, rfl, rfl⟩
          · cases h
            exact ⟨lst, fv.1 ++ [':'], lst', rfl, hr1, Or.inl rfl, rfl, rfl⟩

theorem elfItemStep_KP {sn : Option Str} {key : Str}
    {fd : List (Option Str × List Str)} {l0 : List Str}
    {st st' : ElfOut} {fv : Str × Option Str}
    (hfv : rstripChar ':' fv.1 = fv.1)
    (h : elfItemStep sn key st fv = Except.ok st')
    (h1 : ∀ kv ∈ st.fields_dict, ((kv.2.map (rstripChar ':')).Nodup))
    (h2 : ∃ lcur, dictGet st.fields_dict sn = some lcur ∧ lcur.Sublist l0)
    (h3 : ∀ s, s ≠ sn → dictGet st.fields_dict s = dictGet fd s)
    (h4 : st.match_log.Nodup)
    (h5 : ∀ e ∈ st.match_log, e.1 = sn ∧ e.2 ∈ l0.map (rstripChar ':'))
    (h6 : ∀ e ∈ st.match_log, ∀ lcur, dictGet st.fields_dict sn = some lcur →
        e.2 ∉ lcur.map (rstripChar ':')) :
    (∀ kv ∈ st'.fields_dict, ((kv.2.map (rstripChar ':')).Nodup)) ∧
    (∃ lcur, dictGet st'.fields_dict sn = some lcur ∧ lcur.Sublist l0) ∧
    (∀ s, s ≠ sn → dictGet st'.fields_dict s = dictGet fd s) ∧
    st'.match_log.Nodup ∧
    (∀ e ∈ st'.match_log, e.1 = sn ∧ e.2 ∈ l0.map (rstripChar ':')) ∧
    (∀ e ∈ st'.match_log, ∀ lcur, dictGet st'.fields_dict sn = some lcur →
        e.2 ∉ lcur.map (rstripChar ':')) := by
  obtain ⟨lst, x, lst', hget, hrem, hx, hfd', hlog'⟩ := elfItemStep_shape h
  obtain ⟨lcur, hgc, hsub⟩ := h2
  rw [hget] at hgc
  have hlc : lst = lcur := Option.some.inj hgc
  have hsub' : lst.Sublist l0 := by rw [hlc]; exact hsub
  have hkx : rstripChar ':' x = fv.1 := by
    rcases hx with hx | hx
    · rw [hx, rstripChar_append_same, hfv]
    · rw [hx, hfv]
  obtain ⟨s1, t1, hdecomp, hxs1, hl'⟩ := removeFirst_eq_some hrem
  have hndlst : ((lst.map (rstripChar ':')).Nodup) := h1 (sn, lst) (dictGet_mem hget)
  have hxmem : x ∈ lst := by
    rw [hdecomp]
    exact List.mem_append_right s1 (List.mem_cons_self x t1)
  have hfx_mem_lst : fv.1 ∈ lst.map (rstripChar ':') := by
    rw [← hkx]
    exact List.mem_map_of_mem _ hxmem
  have hfx_mem_l0 : fv.1 ∈ l0.map (rstripChar ':') :=
    (hsub'.map (rstripChar ':')).subset hfx_mem_lst
  have hmaps : lst.map (rstripChar ':') =
      s1.map (rstripChar ':') ++
        rstripChar ':' x :: t1.map (rstripChar ':') := by
    rw [hdecomp]
    simp
  have hnd2 := hndlst
  rw [hmaps, hkx] at hnd2
  have hfx_not_lst' : fv.1 ∉ lst'.map (rstripChar ':') := by
    rw [hl', List.map_append]
    exact (List.nodup_cons.mp (List.nodup_middle.mp hnd2)).1
  have hlst'_sub : lst'.Sublist lst := by
    rw [hl', hdecomp]
    exact List.Sublist.append_left (List.Sublist.cons x (List.Sublist.refl t1)) s1
  refine ⟨?_, ?_, ?_, ?_, ?_, ?_⟩
  · rw [hfd']
    intro kv hkv
    rcases mem_dictSet hkv with hkv | hkv
    · exact h1 kv hkv
    · rw [hkv]
      exact List.Nodup.sublist (hlst'_sub.map (rstripChar ':')) hndlst
  · exact ⟨lst', by rw [hfd']; exact dictGet_dictSet_self _ _ _,
      hlst'_sub.trans hsub'⟩
  · intro s hs
    rw [hfd', dictGet_dictSet_ne st.fields_dict sn s lst' (fun he => hs he.symm)]
    exact h3 s hs
  · rw [hlog']
    refine List.Nodup.append h4 (List.nodup_singleton _) ?_
    intro e he1 he2
    rw [List.mem_singleton] at he2
    subst he2
    exact h6 _ he1 lst hget hfx_mem_lst
  · rw [hlog']
    intro e he
    rcases List.mem_append.mp he with he | he
    · exact h5 e he
    · rw [List.mem_singleton] at he
      subst he
      exact ⟨rfl, hfx_mem_l0⟩
  · rw [hlog', hfd']
    intro e he lcur2 hg2
    rw [dictGet_dictSet_self] at hg2
    cases hg2
    rcases List.mem_append.mp he with he | he
    · intro hm
      exact h6 e he lst hget ((hlst'_sub.map _).subset hm)
    · rw [List.mem_singleton] at he
      subst he
      exact hfx_not_lst'

theorem extract_labeled_field_spec {fd : List (Option Str × List Str)}
    {sn : Option Str} {key clean : Str} {ex : List Str}
    {data : List (Str × Option Str)} {out : ElfOut}
    (hnd : ∀ kv ∈ fd, ((kv.2.map (rstripChar ':')).Nodup))
    (h : extract_labeled_field fd sn key clean ex data = Except.ok out) :
    (∀ kv ∈ out.fields_dict, ((kv.2.map (rstripChar ':')).Nodup)) ∧
    out.match_log.Nodup ∧
    (∀ e ∈ out.match_log, e.1 = sn) ∧
    (∀ e ∈ out.match_log, ∃ l0, dictGet fd sn = some l0 ∧
        e.2 ∈ l0.map (rstripChar ':')) ∧
    (∀ e ∈ out.match_log, ∀ lst, dictGet out.fields_dict sn = some lst →
        e.2 ∉ lst.map (rstripChar ':')) ∧
    (∀ s, s ≠ sn → dictGet out.fields_dict s = dictGet fd s) ∧
    (∀ lst, dictGet out.fields_dict sn = some lst →
        ∃ l0, dictGet fd sn = some l0 ∧ lst.Sublist l0) := by
  unfold extract_labeled_field at h
  by_cases hft : fieldsTruthy fd sn = true
  · rw [if_pos hft] at h
    simp only [] at h
    by_cases hde : (get_text_after_words clean ((dictGet fd sn).getD [])).isEmpty = true
    · rw [if_pos hde] at h
      cases h
      exact ⟨hnd, List.nodup_nil, fun e he => absurd he (List.not_mem_nil e),
        fun e he => absurd he (List.not_mem_nil e),
        fun e he => absurd he (List.not_mem_nil e),
        fun s _ => rfl, fun lst hlst => ⟨lst, hlst, List.Sublist.refl lst⟩⟩
    · rw [if_neg hde] at h
      have hl0ex : ∃ l0, dictGet fd sn = some l0 := by
        unfold fieldsTruthy at hft
        rcases hg : dictGet fd sn with _ | l
        · rw [hg] at hft
          exact Bool.noConfusion hft
        · exact ⟨l, rfl⟩
      obtain ⟨l0, hl0⟩ := hl0ex
      rw [hl0] at h
      simp only [Option.getD_some] at h
      have hfin := foldlM_preserve_mem (elfItemStep sn key)
        (fun fv => rstripChar ':' fv.1 = fv.1)
        (fun stI =>
          (∀ kv ∈ stI.fields_dict, ((kv.2.map (rstripChar ':')).Nodup)) ∧
          (∃ lcur, dictGet stI.fields_dict sn = some lcur ∧ lcur.Sublist l0) ∧
          (∀ s, s ≠ sn → dictGet stI.fields_dict s = dictGet fd s) ∧
          stI.match_log.Nodup ∧
          (∀ e ∈ stI.match_log, e.1 = sn ∧ e.2 ∈ l0.map (rstripChar ':')) ∧
          (∀ e ∈ stI.match_log, ∀ lcur,
              dictGet stI.fields_dict sn = some lcur →
              e.2 ∉ lcur.map (rstripChar ':')))
        (fun b a hQ b' hf hb => by
          obtain ⟨p1, p2, p3, p4, p5, p6⟩ := hb
          exact elfItemStep_KP hQ hf p1 p2 p3 p4 p5 p6)
        (get_text_after_words clean l0) (gtaw_keys_stripped clean l0)
        _ out h
        ⟨hnd, ⟨l0, hl0, List.Sublist.refl l0⟩, fun s _ => rfl, List.nodup_nil,
         fun e he => absurd he (List.not_mem_nil e),
         fun e he => absurd he (List.not_mem_nil e)⟩
      obtain ⟨p1, ⟨lc, hlc, hls⟩, p3, p4, p5, p6⟩ := hfin
      refine ⟨p1, p4, fun e he => (p5 e he).1,
        fun e he => ⟨l0, hl0, (p5 e he).2⟩, p6, p3, ?_⟩
      intro lst hlst
      rw [hlc] at hlst
      cases Option.some.inj hlst
      exact ⟨l0, hl0, hls⟩
  · rw [if_neg hft] at h
    cases h
    exact ⟨hnd, List.nodup_nil, fun e he => absurd he (List.not_mem_nil e),
      fun e he => absurd he (List.not_mem_nil e),
      fun e he => absurd he (List.not_mem_nil e),
      fun s _ => rfl, fun lst hlst => ⟨lst, hlst, List.Sublist.refl lst⟩⟩

theorem labelInv_of_eq {st st' : PageState}
    (hf : st'.fields_dict = st.fields_dict) (hl : st'.match_log = st.match_log)
    (h : labelInv st) : labelInv st' := by
  unfold labelInv at h ⊢
  rw [hf, hl]
  exact h

theorem labelInv_applyElf {st : PageState} {sn : Option Str} {key clean : Str}
    {out : ElfOut} (hinv : labelInv st)
    (h : extract_labeled_field st.fields_dict sn key clean st.extracted_lines
        st.data = Except.ok out) :
    labelInv (applyElf st out) := by
  obtain ⟨hnd, hndl, hrel⟩ := hinv
  obtain ⟨s1, s2, s3, s4, s5, s6, s7⟩ := extract_labeled_field_spec hnd h
  unfold labelInv applyElf
  refine ⟨s1, ?_, ?_⟩
  · refine List.Nodup.append hndl s2 ?_
    intro e he1 he2
    have hsn := s3 e he2
    obtain ⟨l0, hget, hmem⟩ := s4 e he2
    refine hrel e he1 l0 ?_ hmem
    rw [hsn]
    exact hget
  · intro e he lst hget'
    rcases List.mem_append.mp he with he | he
    · by_cases hcase : e.1 = sn
      · rw [hcase] at hget'
        obtain ⟨l0, hget0, hsub⟩ := s7 lst hget'
        intro hmem
        refine hrel e he l0 ?_ ((hsub.map (rstripChar ':')).subset hmem)
        rw [hcase]
        exact hget0
      · refine hrel e he lst ?_
        rw [← s6 e.1 hcase]
        exact hget'
    · have hsn := s3 e he
      refine s5 e he lst ?_
      rw [← hsn]
      exact hget'

theorem sectionTail_fields (line : Str) (y0 : ℚ) (st : PageState)
    (is_subsection : Bool) (clean_line : Str) :
    (sectionTail line y0 st is_subsection clean_line).fields_dict =
      st.fields_dict := by
  unfold sectionTail
  simp only []
  repeat' split
  all_goals rfl

theorem sectionTail_log (line : Str) (y0 : ℚ) (st : PageState)
    (is_subsection : Bool) (clean_line : Str) :
    (sectionTail line y0 st is_subsection clean_line).match_log =
      st.match_log := by
  unfold sectionTail
  simp only []
  repeat' split
  all_goals rfl

theorem sectionBlock_dictlog {cfg : ExtractorConfig} {line : Str} {x0 y0 : ℚ}
    {st : PageState} {sname clean : Str} {st' : PageState}
    (h : sectionBlock cfg line x0 y0 st sname clean = Except.ok st') :
    st'.fields_dict = st.fields_dict ∧ st'.match_log = st.match_log := by
  unfold sectionBlock at h
  rcases hdg : dictGet cfg.sections_all sname with _ | spec <;> rw [hdg] at h <;>
    try simp only [] at h
  · exact Except.noConfusion h
  · repeat' split at h
    all_goals try exact Except.noConfusion h
    all_goals cases h
    all_goals first
      | exact ⟨rfl, rfl⟩
      | exact ⟨sectionTail_fields _ _ _ _ _, sectionTail_log _ _ _ _ _⟩

theorem plTail_labelInv {cfg : ExtractorConfig} {line : Str} {x0 y0 : ℚ}
    {st : PageState} {clean : Str} {st' : PageState}
    (h : plTail cfg line x0 y0 st clean = Except.ok st')
    (hinv : labelInv st) : labelInv st' := by
  unfold plTail at h
  by_cases hft : fieldsTruthy st.fields_dict st.section_name = true
  · rw [if_pos hft] at h
    rcases helf : extract_labeled_field st.fields_dict st.section_name
        st.section_name_key clean st.extracted_lines st.data with e | out <;>
      rw [helf] at h <;>
      try simp only [exc_ok_bind, exc_error_bind, exc_pure_bind] at h
    · exact Except.noConfusion h
    · have hinv1 : labelInv (applyElf st out) := labelInv_applyElf hinv helf
      by_cases hopt : optStrTruthy (applyElf st out).section_name = true
      · rw [if_pos hopt] at h
        obtain ⟨hf, hl⟩ := sectionBlock_dictlog h
        exact labelInv_of_eq hf hl hinv1
      · rw [if_neg hopt] at h
        cases h
        exact labelInv_of_eq rfl rfl hinv1
  · rw [if_neg hft] at h
    simp only [exc_pure_bind] at h
    by_cases hopt : optStrTruthy st.section_name = true
    · rw [if_pos hopt] at h
      obtain ⟨hf, hl⟩ := sectionBlock_dictlog h
      exact labelInv_of_eq hf hl hinv
    · rw [if_neg hopt] at h
      cases h
      exact labelInv_of_eq rfl rfl hinv

theorem processLine_labelInv {cfg : ExtractorConfig} {st st' : PageState}
    {lxy : Str × ℚ × ℚ} (h : processLine cfg st lxy = Except.ok st')
    (hinv : labelInv st) : labelInv st' := by
  unfold processLine at h
  simp only [] at h
  by_cases hig : pyStrip lxy.1 ∈ cfg.ignore_lines
  · rw [if_pos hig] at h
    cases h
    exact labelInv_of_eq rfl rfl hinv
  · rw [if_neg hig] at h
    by_cases hsec : pyStrip lxy.1 ∈ List.map Prod.fst cfg.sections_all
    · rw [if_pos hsec] at h
      cases h
      exact labelInv_of_eq rfl rfl hinv
    · rw [if_neg hsec] at h
      by_cases hft : fieldsTruthy st.fields_dict none = true
      · rw [if_pos hft] at h
        rcases helf : extract_labeled_field st.fields_dict none "geral__".toList
            (pyStrip lxy.1) st.extracted_lines st.data with e | out <;>
          rw [helf] at h <;>
          try simp only [exc_ok_bind, exc_error_bind, exc_pure_bind] at h
        · exact Except.noConfusion h
        · have hinv1 : labelInv (applyElf st out) := labelInv_applyElf hinv helf
          by_cases hfc : out.clean_line.isEmpty = true
          · rw [if_pos hfc] at h
            cases h
            exact labelInv_of_eq rfl rfl hinv1
          · rw [if_neg hfc] at h
            exact plTail_labelInv h hinv1
      · rw [if_neg hft] at h
        exact plTail_labelInv h hinv

theorem pageLineLoop_labelInv {cfg : ExtractorConfig}
    {lines : List (Str × ℚ × ℚ)} {ex : List Str} {st : PageState}
    (hcfg : ∀ kv ∈ cfg.fields, ((kv.2.map (rstripChar ':')).Nodup))
    (h : pageLineLoop cfg lines ex = Except.ok st) : labelInv st := by
  unfold pageLineLoop at h
  cases lines with
  | nil => exact Except.noConfusion h
  | cons l0 rest =>
    refine foldlM_preserve (processLine cfg) labelInv
      (fun b a b' hf hb => processLine_labelInv hf hb) _ _ _ h ?_
    unfold labelInv
    exact ⟨hcfg, List.nodup_nil, fun e he => absurd he (List.not_mem_nil e)⟩

theorem C3_counterexample : ¬ claimC3 := by
  intro h
  have hx := h c3cfg (by decide) c3pages none
    ⟨["Emissão: 01/01/2023".toList, "Emissão: 02/02/2023".toList], [],
     [[("geral__emissao".toList, some "01/01/2023".toList)],
      [("geral__emissao".toList, some "02/02/2023".toList)]],
     [(1, none, "Emissão".toList), (2, none, "Emissão".toList)]⟩
    (by rfl)
  exact absurd hx (by decide)

/-- C3 (amended): the working label set is cloned per PAGE, not per
document (fields_dict = self.get_fields() runs inside the page loop), so
within one page - given that each scope's declared labels have
pairwise-distinct colon-stripped keys - no (scope, label) pair is matched
twice: the page's ghost match log has no duplicate.  Removals never leak
into later pages or documents (each page restarts from the configured
lists), and consequently a label matched on one page can be matched again
on the next page of the same document. -/
theorem C3_label_matched_once_per_page {cfg : ExtractorConfig}
    (hcfg : ∀ kv ∈ cfg.fields, ((kv.2.map (rstripChar ':')).Nodup))
    {lines : List (Str × ℚ × ℚ)} {ex : List Str} {st : PageState}
    (h : pageLineLoop cfg lines ex = Except.ok st) :
    st.match_log.Nodup :=
  (pageLineLoop_labelInv hcfg h).2.1

theorem C3_witness :
    (∀ kv ∈ c3cfg.fields, ((kv.2.map (rstripChar ':')).Nodup)) ∧
    c3wSt.match_log.Nodup :=
  ⟨by decide,
   @C3_label_matched_once_per_page c3cfg (by decide) c3wLines [] c3wSt (by rfl)⟩
